import Mathlib

/-!
# Verification development for the wiring-diagram layout engine

Shallow embedding of src/interconnection_drawio.py.  The Python module turns a
tabular wiring list into a two-column draw.io diagram.  The definitions below
mirror the source: Python dicts (which preserve insertion order) become
association lists, Python `sorted` (a stable sort) becomes a stable insertion
sort, float arithmetic on integer data becomes exact rational arithmetic and
y/x coordinates (always integers in the source) become `Int`.
-/

/-! ## String primitives

Models of the Python string operations used by the script (`str.strip`,
`str.lower`, `str.startswith`, and string comparison, which in Python is
code-point lexicographic).  Implemented on the character list directly so that
all proofs and kernel evaluations stay structural. -/

/-- ASCII whitespace, as stripped by Python `str.strip()`. -/
def isSpaceChar (c : Char) : Bool :=
  c.toNat = 32 || c.toNat = 9 || c.toNat = 10 || c.toNat = 11 || c.toNat = 12 || c.toNat = 13

/-- Strip whitespace from both ends of a character list. -/
def trimChars (cs : List Char) : List Char :=
  ((cs.dropWhile isSpaceChar).reverse.dropWhile isSpaceChar).reverse

/-- Model of Python `str.strip()`. -/
def pyStrip (s : String) : String := ⟨trimChars s.data⟩

/-- Model of Python `str.lower()` (ASCII range). -/
def lowerChar (c : Char) : Char :=
  if 65 ≤ c.toNat ∧ c.toNat ≤ 90 then Char.ofNat (c.toNat + 32) else c

/-- Model of Python `str.lower()`. -/
def pyLower (s : String) : String := ⟨s.data.map lowerChar⟩

/-- Code-point lexicographic comparison on character lists (Python `<=` on str). -/
def charListLe : List Char → List Char → Bool
  | [], _ => true
  | _ :: _, [] => false
  | a :: as, b :: bs =>
    if a.toNat < b.toNat then true
    else if b.toNat < a.toNat then false
    else charListLe as bs

/-- Python string comparison `a <= b`. -/
def strLe (a b : String) : Bool := charListLe a.data b.data

/-- Helper for `strStarts`. -/
def startsList : List Char → List Char → Bool
  | _, [] => true
  | [], _ :: _ => false
  | c :: cs, p :: ps => c = p && startsList cs ps

/-- Model of Python `str.startswith`. -/
def strStarts (s pre : String) : Bool := startsList s.data pre.data

/-! ## Stable sorting

Python `sorted` is a stable sort; a stable sort by a total preorder is uniquely
determined, so this stable insertion sort is a faithful model. -/

/-- Insert `x` after every element `y` of an already sorted list with
`le y x = true`; keeps equal elements in their original order. -/
def stableInsert (le : α → α → Bool) (x : α) : List α → List α
  | [] => [x]
  | y :: ys => if le y x then y :: stableInsert le x ys else x :: y :: ys

/-- Stable sort (model of Python `sorted`). -/
def stableSort (le : α → α → Bool) (l : List α) : List α :=
  l.foldl (fun acc x => stableInsert le x acc) []

/-! ## Association lists (Python dicts, insertion ordered) -/

/-- First value stored under a key. -/
def lookup? : List (String × β) → String → Option β
  | [], _ => none
  | (k, v) :: rest, key => if k = key then some v else lookup? rest key

/-- Lookup with a default value (`dict.get(k, d)`). -/
def lookupD (m : List (String × β)) (k : String) (d : β) : β := (lookup? m k).getD d

/-- `m[k] = f(m.get(k, dflt))`: update in place, or append a new key at the
end, exactly as a Python dict assignment does. -/
def updateAssoc (m : List (String × β)) (k : String) (dflt : β) (f : β → β) :
    List (String × β) :=
  match m with
  | [] => [(k, f dflt)]
  | (k', v) :: rest =>
    if k' = k then (k, f v) :: rest else (k', v) :: updateAssoc rest k dflt f

/-- `m[k] = v`: Python dict assignment (overwrite in place or append). -/
def assocSet (m : List (String × β)) (k : String) (v : β) : List (String × β) :=
  match m with
  | [] => [(k, v)]
  | (k', v') :: rest =>
    if k' = k then (k, v) :: rest else (k', v') :: assocSet rest k v

/-- The keys of an association list, in order. -/
def keysOf (m : List (String × β)) : List String := m.map Prod.fst

/-- The keys of a nested dict, sorted (Python `sorted(d.keys())`). -/
def sortedKeys (m : List (String × β)) : List String := stableSort strLe (keysOf m)

/-! ## Data model (lines 67-126 of the source) -/

/-- One connection row after the per-row normalisation of the `iterrows` loop
(lines 82-90): module/connector/signal strings stripped, `row_idx` the
position after `reset_index`. -/
structure Record where
  mod1 : String
  conn1 : String
  pin1 : String
  signal1 : String
  mod2 : String
  conn2 : String
  pin2 : String
  signal2 : String
  rowIdx : Nat
deriving DecidableEq

/-- One `{'signal': ..., 'row_idx': ...}` entry appended under a pin. -/
structure Entry where
  signal : String
  row_idx : Nat
deriving DecidableEq

/-- `pin -> [entry]` (innermost defaultdict). -/
abbrev PinConns := List (String × List Entry)

/-- `connector -> pins` level. -/
abbrev ConnMap := List (String × PinConns)

/-- `module -> connector -> pin -> [entry]` (one side's nested defaultdict). -/
abbrev SideMap := List (String × ConnMap)

instance : DecidableEq PinConns := inferInstance

instance : DecidableEq ConnMap := inferInstance

instance : DecidableEq SideMap := inferInstance

/-- `is_valid_signal` (lines 72-79): a signal is valid unless it is empty or a
"no connect" synonym after lowering and stripping. -/
def is_valid_signal (signal : String) : Bool :=
  if signal = "" then false
  else if decide (pyStrip (pyLower signal) ∈
      ["", "nc", "n/c", "n.c.", "no connect", "noconnect", "n_c", "na", "n/a"]) then false
  else true

/-- `f"{mod}:{conn}"` for the source side of a connection. -/
def srcKey (c : Record) : String := c.mod1 ++ ":" ++ c.conn1

/-- `f"{mod}:{conn}"` for the target side of a connection. -/
def tgtKey (c : Record) : String := c.mod2 ++ ":" ++ c.conn2

/-- `left_connectors[mod][conn][pin].append(entry)` on the nested defaultdicts. -/
def addPin (m : SideMap) (mod conn pin : String) (e : Entry) : SideMap :=
  updateAssoc m mod [] fun cm =>
    updateAssoc cm conn [] fun pm =>
      updateAssoc pm pin [] fun l => l ++ [e]

/-- The three accumulators of the record loop (lines 67-126). -/
structure IndexState where
  left : SideMap
  right : SideMap
  connections : List Record
deriving DecidableEq

/-- Body of the `for idx, row in df.iterrows()` loop (lines 92-126): skip when
both signals are invalid, add a pin entry per valid side, record a connection
when both sides are valid. -/
def processRecord (st : IndexState) (r : Record) : IndexState :=
  let v1 := is_valid_signal r.signal1
  let v2 := is_valid_signal r.signal2
  if v1 = false ∧ v2 = false then st
  else
    let st1 := if v1 then { st with left := addPin st.left r.mod1 r.conn1 r.pin1 ⟨r.signal1, r.rowIdx⟩ } else st
    let st2 := if v2 then { st1 with right := addPin st1.right r.mod2 r.conn2 r.pin2 ⟨r.signal2, r.rowIdx⟩ } else st1
    if v1 ∧ v2 then { st2 with connections := st2.connections ++ [r] } else st2

/-- The whole record loop. -/
def processRecords (rs : List Record) : IndexState :=
  rs.foldl processRecord ⟨[], [], []⟩

/-! ## Pin ordering (the `sort_key` closure, lines 290-296)

`sort_key` returns `(0, float(pin))` when `float` parses the label and
`(1, pin)` otherwise; tuple comparison then puts all numeric labels first.
The Python builtin `float` is environment code, so the embedding is
parameterised by the parsing function `fkey`; `pyFloatModel` below is a
concrete model of `float` on plain decimal numerals, used for evaluations. -/

/-- Key produced by `sort_key`: tag 0 with the parsed value, or tag 1 with the
raw string. -/
inductive PinKey
  | num (q : ℚ)
  | str (s : String)

/-- `sort_key` (lines 290-296), relative to a model `fkey` of `float`. -/
def sort_key (fkey : String → Option ℚ) (pin : String) : PinKey :=
  match fkey pin with
  | some q => PinKey.num q
  | none => PinKey.str pin

/-- Python tuple comparison on `sort_key` results. -/
def pinKeyLe : PinKey → PinKey → Bool
  | PinKey.num a, PinKey.num b => decide (a ≤ b)
  | PinKey.num _, PinKey.str _ => true
  | PinKey.str _, PinKey.num _ => false
  | PinKey.str a, PinKey.str b => strLe a b

/-- `sorted(pins_dict.keys(), key=sort_key)`. -/
def sortedPins (fkey : String → Option ℚ) (pins : List String) : List String :=
  stableSort (fun a b => pinKeyLe (sort_key fkey a) (sort_key fkey b)) pins

/-- Digits of a numeral to a natural number (`none` on a non-digit). -/
def digitsVal (cs : List Char) : Option Nat :=
  cs.foldl
    (fun acc c =>
      match acc with
      | none => none
      | some n => if c.isDigit then some (n * 10 + (c.toNat - 48)) else none)
    (some 0)

/-- Concrete model of the Python builtin `float` on optionally signed plain
decimal numerals (enough for the concrete inputs evaluated below; the pin
ordering theorem is proved for an arbitrary parser). -/
def pyFloatModel (s : String) : Option ℚ :=
  let cs := s.data
  let sgn : ℚ := match cs with
    | '-' :: _ => -1
    | _ => 1
  let body := match cs with
    | '-' :: r => r
    | '+' :: r => r
    | r => r
  let intPart := body.takeWhile Char.isDigit
  let rest := body.drop intPart.length
  match rest with
  | [] =>
    if intPart.isEmpty then none
    else (digitsVal intPart).map fun n => sgn * (n : ℚ)
  | '.' :: frac =>
    if frac.all Char.isDigit && !(intPart.isEmpty && frac.isEmpty) then
      match digitsVal intPart, digitsVal frac with
      | some n, some f => some (sgn * ((n : ℚ) + (f : ℚ) / ((10 : ℚ) ^ frac.length)))
      | _, _ => none
    else none
  | _ => none

/-! ## Layout data and provisional placement (lines 128-262) -/

/-- One element of a `pins_list`. -/
structure PinData where
  pin : String
  signal : String
  connections : List Entry
deriving DecidableEq

/-- A positioned connector box: the dict stored in `positions[key]`
(lines 248-256 and analogues). -/
structure Pos where
  x : Int
  y : Int
  width : Int
  height : Int
  pins : List PinData
  module : String
  connector : String
deriving DecidableEq

/-- `connections_list[0]['signal']`. -/
def headSignal : List Entry → String
  | [] => ""
  | e :: _ => e.signal

/-- The `pins_list` built for one connector (sorted pins, first-seen signal,
all sharing entries). -/
def buildPinsList (fkey : String → Option ℚ) (pinsDict : PinConns) : List PinData :=
  (sortedPins fkey (keysOf pinsDict)).map fun pin =>
    { pin := pin
      signal := headSignal (lookupD pinsDict pin [])
      connections := lookupD pinsDict pin [] }

/-- `connector_height = len(pins_list) * pin_height + 60` with
`pin_height = 28`. -/
def connHeight (pins : List PinData) : Int := (pins.length : Int) * 28 + 60

/-- `calculate_initial_positions` (lines 217-262): alphabetic provisional
stacking of one side, used only for the reference y-coordinates.  Constants:
`margin_x = 50`, `margin_y = 100`, `connector_width = 240`,
`connector_padding = 20`, `module_spacing = 50`, `horizontal_gap = 450`. -/
def calculate_initial_positions (fkey : String → Option ℚ) (connectors : SideMap)
    (isLeft : Bool) : List (String × Pos) :=
  ((sortedKeys connectors).foldl
    (fun (acc : List (String × Pos) × Int) modName =>
      let cm := lookupD connectors modName []
      let inner := (sortedKeys cm).foldl
        (fun (acc2 : List (String × Pos) × Int) connName =>
          let pinsList := buildPinsList fkey (lookupD cm connName [])
          let h := connHeight pinsList
          let xPos : Int := if isLeft then 50 else 50 + 240 + 450
          (assocSet acc2.1 (modName ++ ":" ++ connName)
            ⟨xPos, acc2.2, 240, h, pinsList, modName, connName⟩,
           acc2.2 + h + 20))
        acc
      (inner.1, inner.2 + 50))
    ([], 100)).1

/-! ## Center of mass and left-module ordering (lines 171-275) -/

/-- `calculate_center_of_mass` (lines 181-214), translated literally: note the
guard compares the bare module name against the `"module:connector"` keys of
`positions_dict`. -/
def calculate_center_of_mass (connections : List Record) (module_key : String)
    (is_left : Bool) (positions_dict other_positions_dict : List (String × Pos)) : ℚ :=
  if ¬ (module_key ∈ keysOf positions_dict) then 0
  else
    let acc := positions_dict.foldl
      (fun (acc : ℚ × ℚ) kv =>
        let conn_key := kv.1
        if ¬ (strStarts conn_key (module_key ++ ":") = true) then acc
        else
          connections.foldl
            (fun (acc2 : ℚ × ℚ) conn =>
              if is_left then
                if srcKey conn = conn_key then
                  match lookup? other_positions_dict (tgtKey conn) with
                  | some p => (acc2.1 + 1, acc2.2 + (p.y : ℚ))
                  | none => acc2
                else acc2
              else
                if tgtKey conn = conn_key then
                  match lookup? other_positions_dict (srcKey conn) with
                  | some p => (acc2.1 + 1, acc2.2 + (p.y : ℚ))
                  | none => acc2
                else acc2)
            acc)
      ((0 : ℚ), (0 : ℚ))
    if acc.1 = 0 then 0 else acc.2 / acc.1

/-- The `left_modules` dict (lines 269-272): module name to center of mass. -/
def left_modules_centers (connections : List Record) (leftMap : SideMap)
    (tempLeft tempRight : List (String × Pos)) : List (String × ℚ) :=
  (keysOf leftMap).map fun m =>
    (m, calculate_center_of_mass connections m true tempLeft tempRight)

/-- `left_modules[m]` lookup used as the sort key (always present). -/
def centerOf (centers : List (String × ℚ)) (m : String) : ℚ := lookupD centers m 0

/-- `sorted_left_modules` (line 275): stable sort of the module names by their
center of mass. -/
def sorted_left_modules (centers : List (String × ℚ)) : List String :=
  stableSort (fun a b => decide (centerOf centers a ≤ centerOf centers b)) (keysOf centers)

/-! ## Final placement (lines 280-435) -/

/-- The mutable placement state of the main loop: the two position dicts and
the running `current_y` cursor. -/
structure PlaceState where
  leftPositions : List (String × Pos)
  rightPositions : List (String × Pos)
  currentY : Int
deriving DecidableEq

/-- `∃` a connection from `leftKey` into connector `rconn` of right module
`rmod` (the `has_connection` scan, lines 340-346). -/
def connectedTo (conns : List Record) (leftKey rmod rconn : String) : Prop :=
  ∃ c ∈ conns, srcKey c = leftKey ∧ c.mod2 = rmod ∧ c.conn2 = rconn

instance (conns : List Record) (leftKey rmod rconn : String) :
    Decidable (connectedTo conns leftKey rmod rconn) := List.decidableBEx _ conns

/-- The set `connected_right_modules` (lines 325-328), kept in first-insertion
order; set iteration order is unspecified in Python, but the set is only ever
sorted or folded with `max`, so any enumeration of it is faithful. -/
def connectedRightModules (conns : List Record) (leftKey : String) : List String :=
  conns.foldl
    (fun acc c =>
      if srcKey c = leftKey then (if c.mod2 ∈ acc then acc else acc ++ [c.mod2]) else acc)
    []

/-- Body of the inner right-placement loop (lines 332-378): skip an already
placed connector, skip a connector with no connection from `leftKey`, and
otherwise place it at the running `right_start_y`. -/
def placeRightConnStep (fkey : String → Option ℚ) (rightCs : SideMap)
    (conns : List Record) (leftKey rmod : String)
    (acc : List (String × Pos) × Int) (rconn : String) : List (String × Pos) × Int :=
  let rkey := rmod ++ ":" ++ rconn
  if rkey ∈ keysOf acc.1 then acc
  else if ¬ connectedTo conns leftKey rmod rconn then acc
  else
    let pinsList := buildPinsList fkey (lookupD (lookupD rightCs rmod []) rconn [])
    let h := connHeight pinsList
    (assocSet acc.1 rkey ⟨50 + 240 + 450, acc.2, 240, h, pinsList, rmod, rconn⟩,
     acc.2 + h + 20)

/-- Lines 321-378: after a LEFT connector is placed at `y0`, stack the not yet
placed RIGHT connectors that have a connection from it, starting at `y0`. -/
def placeRightsForLeft (fkey : String → Option ℚ) (rightCs : SideMap)
    (conns : List Record) (leftKey : String)
    (rp : List (String × Pos)) (y0 : Int) : List (String × Pos) × Int :=
  (stableSort strLe (connectedRightModules conns leftKey)).foldl
    (fun acc rmod =>
      (sortedKeys (lookupD rightCs rmod [])).foldl
        (placeRightConnStep fkey rightCs conns leftKey rmod) acc)
    (rp, y0)

/-- Lines 382-389: `max_right_y`, the maximum over the LEFT connector's own
bottom and the bottoms of the placed right connectors of the connected
modules. -/
def maxRightBottom (rightCs : SideMap) (mods : List String)
    (rp : List (String × Pos)) (init : Int) : Int :=
  mods.foldl
    (fun m rmod =>
      (sortedKeys (lookupD rightCs rmod [])).foldl
        (fun m2 rconn =>
          match lookup? rp (rmod ++ ":" ++ rconn) with
          | some p => max m2 (p.y + p.height)
          | none => m2)
        m)
    init

/-- One iteration of the main placement loop (lines 284-392): place the LEFT
connector at `current_y`, co-place its connected RIGHT connectors from the
same y, then advance `current_y` past `max_right_y` by `module_spacing`. -/
def placeLeftConn (fkey : String → Option ℚ) (leftCs rightCs : SideMap)
    (conns : List Record) (st : PlaceState) (modName connName : String) : PlaceState :=
  let leftKey := modName ++ ":" ++ connName
  let pinsList := buildPinsList fkey (lookupD (lookupD leftCs modName []) connName [])
  let h := connHeight pinsList
  let lp := assocSet st.leftPositions leftKey
    ⟨50, st.currentY, 240, h, pinsList, modName, connName⟩
  let res := placeRightsForLeft fkey rightCs conns leftKey st.rightPositions st.currentY
  let m := maxRightBottom rightCs (connectedRightModules conns leftKey) res.1
    (st.currentY + h)
  ⟨lp, res.1, m + 50⟩

/-- Body of the leftover loop (lines 395-435): append a never-triggered RIGHT
connector at `current_y`. -/
def placeLeftoverStep (fkey : String → Option ℚ) (rightCs : SideMap) (rmod : String)
    (s : PlaceState) (rconn : String) : PlaceState :=
  let rkey := rmod ++ ":" ++ rconn
  if rkey ∈ keysOf s.rightPositions then s
  else
    let pinsList := buildPinsList fkey (lookupD (lookupD rightCs rmod []) rconn [])
    let h := connHeight pinsList
    ⟨s.leftPositions,
     assocSet s.rightPositions rkey ⟨50 + 240 + 450, s.currentY, 240, h, pinsList, rmod, rconn⟩,
     s.currentY + h + 20⟩

/-- Lines 394-435: stack all RIGHT connectors never triggered by a LEFT
placement at the bottom, in alphabetic (module, connector) order. -/
def placeLeftoverRights (fkey : String → Option ℚ) (rightCs : SideMap)
    (st : PlaceState) : PlaceState :=
  (sortedKeys rightCs).foldl
    (fun s rmod =>
      (sortedKeys (lookupD rightCs rmod [])).foldl (placeLeftoverStep fkey rightCs rmod) s)
    st

/-- The full layout engine on an indexed state: provisional placement, center
of mass, stable sort of LEFT modules, main placement loop, leftover pass. -/
def layoutOfState (fkey : String → Option ℚ) (st : IndexState) : PlaceState :=
  let tempLeft := calculate_initial_positions fkey st.left true
  let tempRight := calculate_initial_positions fkey st.right false
  let centers := left_modules_centers st.connections st.left tempLeft tempRight
  let slm := sorted_left_modules centers
  let afterMain := slm.foldl
    (fun s m =>
      (sortedKeys (lookupD st.left m [])).foldl
        (fun s2 c => placeLeftConn fkey st.left st.right st.connections s2 m c) s)
    ⟨[], [], 100⟩
  placeLeftoverRights fkey st.right afterMain

/-- Layout of a record list (lines 67-435 composed). -/
def layout (fkey : String → Option ℚ) (records : List Record) : PlaceState :=
  layoutOfState fkey (processRecords records)

/-! ## Wire lane offsets (lines 553-582 and 634-639) -/

/-- `len(positions[key]['pins'])`, the pin count used for the offset step. -/
def numPins (positions : List (String × Pos)) (k : String) : Nat :=
  match lookup? positions k with
  | some p => p.pins.length
  | none => 0

/-- `left_connector_offsets` (lines 558-572): walk the connectors in placement
order and record the running cumulative offset, advancing it by
`num_pins * spacing + spacing` with `spacing = 12`. -/
def left_connector_offsets (slm : List String) (leftCs : SideMap)
    (leftPositions : List (String × Pos)) : List (String × Int) :=
  (slm.foldl
    (fun (acc : List (String × Int) × Int) m =>
      (sortedKeys (lookupD leftCs m [])).foldl
        (fun (acc2 : List (String × Int) × Int) c =>
          let key := m ++ ":" ++ c
          match lookup? leftPositions key with
          | none => acc2
          | some _ =>
            (assocSet acc2.1 key acc2.2, acc2.2 + (numPins leftPositions key : Int) * 12 + 12))
        acc)
    ([], 0)).1

/-- `right_connector_offsets` (lines 574-582): same walk over the right
positions dict in its insertion (= placement) order. -/
def right_connector_offsets (rightPositions : List (String × Pos)) : List (String × Int) :=
  (rightPositions.foldl
    (fun (acc : List (String × Int) × Int) kv =>
      (assocSet acc.1 kv.1 acc.2, acc.2 + (numPins rightPositions kv.1 : Int) * 12 + 12))
    ([], 0)).1

/-- The exit-lane x of a wire leaving `leftKey` at pin index `pinIdx`
(lines 631, 635, 638): `left_pin_x + base_offset + connector_base + idx*spacing`
with `base_offset = 30`, `spacing = 12`; the `none` branch is unreachable in
the wire loop, which first checks `left_key in left_positions` (line 590). -/
def left_offset_x (leftPositions : List (String × Pos)) (offsets : List (String × Int))
    (leftKey : String) (pinIdx : Int) : Int :=
  match lookup? leftPositions leftKey with
  | some pos => (pos.x + pos.width + 5) + 30 + lookupD offsets leftKey 0 + pinIdx * 12
  | none => 0

/-! ## Input filtering and the command entry (lines 26-64, 81-126, 687-691) -/

/-- One raw spreadsheet row; `none` models a missing (NaN) cell. -/
structure RawRow where
  modulo1 : Option String
  conector1 : Option String
  pin1 : Option String
  senal1 : Option String
  senal2 : Option String
  pin2 : Option String
  conector2 : Option String
  modulo2 : Option String
deriving DecidableEq

/-- `str(cell)` for a possibly missing cell: pandas renders a missing value as
the string `"nan"`. -/
def strForm : Option String → String
  | none => "nan"
  | some s => s

/-- Lines 44-58: drop rows with missing pins, strip the pin strings, drop
empty and `"nan"` pins, then drop rows with missing module/connector cells. -/
def filterRows (rows : List RawRow) : List RawRow :=
  (((((rows.filter fun r => r.pin1.isSome && r.pin2.isSome).map fun r =>
      { r with pin1 := r.pin1.map pyStrip, pin2 := r.pin2.map pyStrip }).filter fun r =>
      decide (r.pin1.getD "" ≠ "") && decide (r.pin2.getD "" ≠ "")).filter fun r =>
      decide (pyLower (r.pin1.getD "") ≠ "nan") && decide (pyLower (r.pin2.getD "") ≠ "nan")).filter fun r =>
      r.modulo1.isSome && r.conector1.isSome && r.modulo2.isSome && r.conector2.isSome)

/-- Lines 82-90: normalise one surviving row at position `i` into a `Record`. -/
def toRecord (i : Nat) (r : RawRow) : Record :=
  { mod1 := pyStrip (strForm r.modulo1)
    conn1 := pyStrip (strForm r.conector1)
    pin1 := r.pin1.getD ""
    signal1 := match r.senal1 with | some s => pyStrip s | none => ""
    mod2 := pyStrip (strForm r.modulo2)
    conn2 := pyStrip (strForm r.conector2)
    pin2 := r.pin2.getD ""
    signal2 := match r.senal2 with | some s => pyStrip s | none => ""
    rowIdx := i }

/-- The required column list (lines 37-38). -/
def required_cols : List String :=
  ["Modulo1", "Conector1", "Pin1", "Señal1", "Señal2", "Pin2", "Conector2", "Modulo2"]

/-- `', '.join(missing_cols)`. -/
def joinComma : List String → String
  | [] => ""
  | [s] => s
  | s :: rest => s ++ ", " ++ joinComma rest

/-- The missing-columns error message (line 42). -/
def missingColsMsg (cols : List String) : String :=
  "Faltan columnas requeridas: " ++ joinComma cols

/-- The empty-after-filtering error message (line 64). -/
def emptyRowsMsg : String :=
  "No hay filas válidas después de filtrar. Verifica que tu Excel tenga valores en Pin1 y Pin2."

/-- `generate_drawio_diagram` up to layout (lines 26-435): file I/O is modelled
by the `Except` result — an `error` aborts the run before anything is written.
The input is a table whose column names are already stripped (line 34). -/
def generate_drawio_diagram (t : List String × List RawRow) : Except String PlaceState :=
  let missing := required_cols.filter fun c => ¬ c ∈ t.1
  if missing ≠ [] then Except.error (missingColsMsg missing)
  else
    let rows := filterRows t.2
    if rows.length = 0 then Except.error emptyRowsMsg
    else Except.ok (layout pyFloatModel (rows.enum.map fun p => toRecord p.1 p.2))

/-! ## Specification-side definitions

These follow the wording of the specification and are compared against the
translated source definitions in the theorems below. -/

/-- The "not connected" synonym set of the spec (and of line 77). -/
def nc_synonyms : List String :=
  ["", "nc", "n/c", "n.c.", "no connect", "noconnect", "n_c", "na", "n/a"]

/-- Spec side: a signal is invalid iff after trimming and lowercasing it is
empty or a "no connect" synonym (lowercasing fixes whitespace, so the two
operations commute and are applied here in the source's order). -/
def invalid_signal_spec (s : String) : Bool :=
  decide (pyStrip (pyLower s) ∈ nc_synonyms)

/-- Spec side: the center of mass of a LEFT module as the weight-1-per-
connection arithmetic mean of the provisional RIGHT y-coordinates of the
connector groups its connections reach. -/
def centerOfMassSpec (connections : List Record) (moduleName : String)
    (rightTemp : List (String × Pos)) : ℚ :=
  let ys := connections.filterMap fun c =>
    if c.mod1 = moduleName then (lookup? rightTemp (tgtKey c)).map (fun p => (p.y : ℚ))
    else none
  if ys.length = 0 then 0 else ys.sum / (ys.length : ℚ)

/-! ## Association list lemmas -/

theorem lookup?_updateAssoc (m : List (String × β)) (k : String) (d : β) (f : β → β) :
    lookup? (updateAssoc m k d f) k = some (f (lookupD m k d)) := by
  induction m with
  | nil => simp [updateAssoc, lookup?, lookupD]
  | cons kv rest ih =>
    obtain ⟨k', v⟩ := kv
    by_cases h : k' = k
    · subst h; simp [updateAssoc, lookup?, lookupD]
    · simp [updateAssoc, lookup?, h, ih, lookupD]

theorem lookupD_updateAssoc (m : List (String × β)) (k : String) (d : β) (f : β → β) :
    lookupD (updateAssoc m k d f) k d = f (lookupD m k d) := by
  simp [lookupD, lookup?_updateAssoc]

theorem keysOf_cons (kv : String × β) (m : List (String × β)) :
    keysOf (kv :: m) = kv.1 :: keysOf m := rfl

theorem keysOf_updateAssoc (m : List (String × β)) (k : String) (d : β) (f : β → β) :
    keysOf (updateAssoc m k d f) =
      if k ∈ keysOf m then keysOf m else keysOf m ++ [k] := by
  induction m with
  | nil => simp [updateAssoc, keysOf]
  | cons kv rest ih =>
    obtain ⟨k', v⟩ := kv
    by_cases h : k' = k
    · subst h; simp [updateAssoc, keysOf_cons]
    · have h'' : ¬ (k = k') := fun e => h e.symm
      simp only [updateAssoc, if_neg h, keysOf_cons, ih]
      by_cases hm : k ∈ keysOf rest
      · simp [List.mem_cons, h'', hm]
      · simp [List.mem_cons, h'', hm]

theorem assocSet_of_not_mem (m : List (String × β)) (k : String) (v : β)
    (h : ¬ k ∈ keysOf m) : assocSet m k v = m ++ [(k, v)] := by
  induction m with
  | nil => simp [assocSet]
  | cons kv rest ih =>
    obtain ⟨k', v'⟩ := kv
    rw [keysOf_cons, List.mem_cons] at h
    push_neg at h
    have h1 : ¬ k' = k := by
      intro e; exact h.1 (by simpa using e.symm)
    simp [assocSet, h1, ih h.2]

theorem mem_assocSet (m : List (String × β)) (k : String) (v : β) (kv : String × β)
    (h : kv ∈ assocSet m k v) : kv ∈ m ∨ kv = (k, v) := by
  induction m with
  | nil => simp [assocSet] at h; simp [h]
  | cons kv' rest ih =>
    obtain ⟨k', v'⟩ := kv'
    by_cases he : k' = k
    · subst he
      simp [assocSet] at h
      rcases h with h | h
      · right; simp [h]
      · left; simp [h]
    · simp [assocSet, he] at h
      rcases h with h | h
      · left; simp [h]
      · rcases ih h with h' | h'
        · left; simp [h']
        · right; exact h'

theorem keysOf_assocSet (m : List (String × β)) (k : String) (v : β) :
    keysOf (assocSet m k v) = if k ∈ keysOf m then keysOf m else keysOf m ++ [k] := by
  induction m with
  | nil => simp [assocSet, keysOf]
  | cons kv rest ih =>
    obtain ⟨k', v'⟩ := kv
    by_cases h : k' = k
    · subst h; simp [assocSet, keysOf_cons]
    · have h'' : ¬ (k = k') := fun e => h e.symm
      simp only [assocSet, if_neg h, keysOf_cons, ih]
      by_cases hm : k ∈ keysOf rest
      · simp [List.mem_cons, h'', hm]
      · simp [List.mem_cons, h'', hm]

theorem nodup_keysOf_assocSet (m : List (String × β)) (k : String) (v : β)
    (h : (keysOf m).Nodup) : (keysOf (assocSet m k v)).Nodup := by
  rw [keysOf_assocSet]
  by_cases hm : k ∈ keysOf m
  · simpa [hm] using h
  · rw [if_neg hm]
    refine h.append (List.nodup_singleton k) ?_
    intro a ha hb
    rw [List.mem_singleton] at hb
    exact hm (hb ▸ ha)

theorem lookup?_mem (m : List (String × β)) (k : String) (v : β)
    (h : lookup? m k = some v) : (k, v) ∈ m := by
  induction m with
  | nil => simp [lookup?] at h
  | cons kv rest ih =>
    obtain ⟨k', v'⟩ := kv
    by_cases he : k' = k
    · subst he; simp [lookup?] at h; simp [h]
    · simp [lookup?, he] at h
      simpa using Or.inr (ih h)

theorem lookup?_eq_some_of_mem (m : List (String × β)) (k : String) (v : β)
    (hnd : (keysOf m).Nodup) (h : (k, v) ∈ m) : lookup? m k = some v := by
  induction m with
  | nil => simp at h
  | cons kv rest ih =>
    obtain ⟨k', v'⟩ := kv
    rw [keysOf_cons, List.nodup_cons] at hnd
    rcases List.mem_cons.mp h with he | hm
    · have e1 : k' = k := (congrArg Prod.fst he).symm
      have e2 : v' = v := (congrArg Prod.snd he).symm
      subst e1; subst e2
      simp [lookup?]
    · have hne : ¬ k' = k := by
        intro e; subst e
        have hmm : (k', v).1 ∈ rest.map Prod.fst := List.mem_map_of_mem Prod.fst hm
        exact hnd.1 hmm
      simp [lookup?, hne, ih hnd.2 hm]

theorem mem_keysOf_of_lookup? (m : List (String × β)) (k : String) (v : β)
    (h : lookup? m k = some v) : k ∈ keysOf m := by
  simpa [keysOf] using List.mem_map_of_mem Prod.fst (lookup?_mem m k v h)

theorem lookup?_eq_none_of_not_mem (m : List (String × β)) (k : String)
    (h : ¬ k ∈ keysOf m) : lookup? m k = none := by
  cases hl : lookup? m k with
  | none => rfl
  | some v => exact absurd (mem_keysOf_of_lookup? m k v hl) h

/-! ## Signal validity: code vs spec -/

theorem is_valid_signal_iff_not_spec (s : String) :
    is_valid_signal s = !(invalid_signal_spec s) := by
  by_cases h : s = ""
  · subst h; decide
  · simp only [is_valid_signal, invalid_signal_spec, nc_synonyms, if_neg h]
    rcases Decidable.em (pyStrip (pyLower s) ∈
        ["", "nc", "n/c", "n.c.", "no connect", "noconnect", "n_c", "na", "n/a"]) with hm | hm
    · simp [hm]
    · simp [hm]

/-! ## C5: records with two invalid signals contribute nothing -/

theorem processRecord_skip (st : IndexState) (r : Record)
    (h1 : is_valid_signal r.signal1 = false) (h2 : is_valid_signal r.signal2 = false) :
    processRecord st r = st := by
  simp [processRecord, h1, h2]

/-- C5: a connection record whose two signals are both invalid — where a
signal is invalid iff after trimming and lowercasing it is empty or a member
of the "no connect" synonym set — contributes no pin entry, no box and no wire:
removing it from the input leaves the index state, and hence the whole layout,
unchanged. -/
theorem both_invalid_discarded (rs₁ rs₂ : List Record) (r : Record)
    (h1 : invalid_signal_spec r.signal1 = true) (h2 : invalid_signal_spec r.signal2 = true) :
    processRecords (rs₁ ++ r :: rs₂) = processRecords (rs₁ ++ rs₂) ∧
    (∀ fkey, layout fkey (rs₁ ++ r :: rs₂) = layout fkey (rs₁ ++ rs₂)) ∧
    (∀ s, is_valid_signal s = !(invalid_signal_spec s)) := by
  have e1 : is_valid_signal r.signal1 = false := by
    rw [is_valid_signal_iff_not_spec, h1]; rfl
  have e2 : is_valid_signal r.signal2 = false := by
    rw [is_valid_signal_iff_not_spec, h2]; rfl
  have hmain : processRecords (rs₁ ++ r :: rs₂) = processRecords (rs₁ ++ rs₂) := by
    simp [processRecords, List.foldl_append, processRecord_skip _ r e1 e2]
  exact ⟨hmain, fun fkey => by simp [layout, hmain],
    fun s => is_valid_signal_iff_not_spec s⟩

/-- A fully "no connect" record used as concrete input. -/
def recNCNC : Record := ⟨"LA", "C1", "1", " N/C ", "RB", "R1", "2", "nc", 5⟩

theorem both_invalid_discarded_witness :
    processRecords [recNCNC] = processRecords [] :=
  (both_invalid_discarded [] [] recNCNC (by decide) (by decide)).1

/-! ## C7: records with exactly one invalid side -/

/-- The entry list stored under `m[mod][conn][pin]`. -/
def pinEntries (m : SideMap) (mod conn pin : String) : List Entry :=
  lookupD (lookupD (lookupD m mod []) conn []) pin []

theorem pinEntries_addPin (m : SideMap) (mod conn pin : String) (e : Entry) :
    pinEntries (addPin m mod conn pin e) mod conn pin =
      pinEntries m mod conn pin ++ [e] := by
  simp [pinEntries, addPin, lookupD_updateAssoc]

/-- C7: a record with exactly one invalid signal side creates a pin entry on
the valid side only — the other side's hierarchy is untouched — and adds no
connection, hence no routed wire is produced from it. -/
theorem one_invalid_side_pin_only (st : IndexState) (r : Record)
    (h : is_valid_signal r.signal1 ≠ is_valid_signal r.signal2) :
    (processRecord st r).connections = st.connections ∧
    (if is_valid_signal r.signal1 then
        (processRecord st r).right = st.right ∧
        pinEntries (processRecord st r).left r.mod1 r.conn1 r.pin1 =
          pinEntries st.left r.mod1 r.conn1 r.pin1 ++ [⟨r.signal1, r.rowIdx⟩]
      else
        (processRecord st r).left = st.left ∧
        pinEntries (processRecord st r).right r.mod2 r.conn2 r.pin2 =
          pinEntries st.right r.mod2 r.conn2 r.pin2 ++ [⟨r.signal2, r.rowIdx⟩]) := by
  cases hv1 : is_valid_signal r.signal1 <;> cases hv2 : is_valid_signal r.signal2
  · exact absurd (hv1.trans hv2.symm) h
  · refine ⟨?_, ?_⟩
    · simp [processRecord, hv1, hv2]
    · simp [processRecord, hv1, hv2, pinEntries_addPin]
  · refine ⟨?_, ?_⟩
    · simp [processRecord, hv1, hv2]
    · simp [processRecord, hv1, hv2, pinEntries_addPin]
  · exact absurd (hv1.trans hv2.symm) h

/-- A record whose target signal is "NC" (Scenario B shape). -/
def recOneSided : Record := ⟨"LA", "C1", "3", "GPIO3", "RB", "R1", "7", "NC", 0⟩

theorem one_invalid_side_pin_only_witness :
    (processRecord ⟨[], [], []⟩ recOneSided).connections = [] ∧
    (processRecord ⟨[], [], []⟩ recOneSided).right = [] :=
  ⟨(one_invalid_side_pin_only ⟨[], [], []⟩ recOneSided (by decide)).1,
   by
    have h := (one_invalid_side_pin_only ⟨[], [], []⟩ recOneSided (by decide)).2
    rw [if_pos (by decide)] at h
    exact h.1⟩

/-! ## Stable sort lemmas -/

theorem mem_stableInsert (le : α → α → Bool) (x : α) (l : List α) (a : α) :
    a ∈ stableInsert le x l ↔ a = x ∨ a ∈ l := by
  induction l with
  | nil => simp [stableInsert]
  | cons y ys ih =>
    by_cases h : le y x = true
    · rw [stableInsert, if_pos h]
      simp only [List.mem_cons, ih]
      tauto
    · rw [stableInsert, if_neg h]
      simp only [List.mem_cons]

theorem stableInsert_perm (le : α → α → Bool) (x : α) (l : List α) :
    List.Perm (stableInsert le x l) (x :: l) := by
  induction l with
  | nil => exact List.Perm.refl _
  | cons y ys ih =>
    by_cases h : le y x = true
    · rw [stableInsert, if_pos h]
      exact (ih.cons y).trans (List.Perm.swap x y ys)
    · rw [stableInsert, if_neg h]

theorem stableSort_perm (le : α → α → Bool) (l : List α) :
    List.Perm (stableSort le l) l := by
  suffices h : ∀ acc : List α,
      List.Perm (l.foldl (fun acc x => stableInsert le x acc) acc) (acc ++ l) by
    simpa [stableSort] using h []
  induction l with
  | nil => intro acc; simp
  | cons x xs ih =>
    intro acc
    have h1 := ih (stableInsert le x acc)
    have h2 : List.Perm (stableInsert le x acc ++ xs) ((x :: acc) ++ xs) :=
      (stableInsert_perm le x acc).append_right xs
    have h3 : List.Perm ((x :: acc) ++ xs) (acc ++ x :: xs) := by
      simpa using List.perm_middle.symm
    simpa [List.foldl_cons] using (h1.trans h2).trans h3

theorem mem_stableSort (le : α → α → Bool) (l : List α) (a : α) :
    a ∈ stableSort le l ↔ a ∈ l :=
  (stableSort_perm le l).mem_iff

theorem pairwise_stableInsert (le : α → α → Bool)
    (htot : ∀ a b, le a b = true ∨ le b a = true)
    (htrans : ∀ a b c, le a b = true → le b c = true → le a c = true)
    (x : α) (l : List α) (hl : l.Pairwise (fun a b => le a b = true)) :
    (stableInsert le x l).Pairwise (fun a b => le a b = true) := by
  induction l with
  | nil => simp [stableInsert]
  | cons y ys ih =>
    have hl' := List.pairwise_cons.mp hl
    by_cases h : le y x = true
    · rw [stableInsert, if_pos h]
      rw [List.pairwise_cons]
      refine ⟨?_, ih hl'.2⟩
      intro a ha
      rcases (mem_stableInsert le x ys a).mp ha with rfl | ha'
      · exact h
      · exact hl'.1 a ha'
    · rw [stableInsert, if_neg h]
      have hxy : le x y = true := (htot x y).resolve_right h
      rw [List.pairwise_cons]
      refine ⟨?_, hl⟩
      intro a ha
      rcases List.mem_cons.mp ha with rfl | ha'
      · exact hxy
      · exact htrans x y a hxy (hl'.1 a ha')

theorem pairwise_stableSort (le : α → α → Bool)
    (htot : ∀ a b, le a b = true ∨ le b a = true)
    (htrans : ∀ a b c, le a b = true → le b c = true → le a c = true)
    (l : List α) :
    (stableSort le l).Pairwise (fun a b => le a b = true) := by
  suffices h : ∀ acc : List α, acc.Pairwise (fun a b => le a b = true) →
      (l.foldl (fun acc x => stableInsert le x acc) acc).Pairwise
        (fun a b => le a b = true) by
    exact h [] (by simp)
  induction l with
  | nil => intro acc hacc; simpa using hacc
  | cons x xs ih =>
    intro acc hacc
    exact ih _ (pairwise_stableInsert le htot htrans x acc hacc)

theorem stableInsert_of_all (le : α → α → Bool) (x : α) (l : List α)
    (h : ∀ y ∈ l, le y x = true) : stableInsert le x l = l ++ [x] := by
  induction l with
  | nil => simp [stableInsert]
  | cons y ys ih =>
    rw [stableInsert, if_pos (h y (by simp)), ih (fun z hz => h z (by simp [hz]))]
    rfl

theorem stableSort_of_all (le : α → α → Bool) (l : List α)
    (h : ∀ a ∈ l, ∀ b ∈ l, le a b = true) : stableSort le l = l := by
  suffices hs : ∀ acc : List α, (∀ y ∈ acc, ∀ x ∈ l, le y x = true) →
      (∀ a ∈ l, ∀ b ∈ l, le a b = true) →
      l.foldl (fun acc x => stableInsert le x acc) acc = acc ++ l by
    simpa [stableSort] using hs [] (by simp) h
  clear h
  induction l with
  | nil => intro acc _ _; simp
  | cons x xs ih =>
    intro acc h1 h2
    rw [List.foldl_cons, stableInsert_of_all le x acc (fun y hy => h1 y hy x (by simp))]
    rw [ih (acc ++ [x]) ?_ ?_]
    · simp
    · intro y hy z hz
      rcases List.mem_append.mp hy with hy' | hy'
      · exact h1 y hy' z (by simp [hz])
      · rw [List.mem_singleton] at hy'
        subst hy'
        exact h2 y (by simp) z (by simp [hz])
    · intro a ha b hb
      exact h2 a (by simp [ha]) b (by simp [hb])

/-! ## Totality and transitivity of the comparison functions -/

theorem charListLe_cons_iff (x y : Char) (xs ys : List Char) :
    charListLe (x :: xs) (y :: ys) = true ↔
      x.toNat < y.toNat ∨ (x.toNat = y.toNat ∧ charListLe xs ys = true) := by
  by_cases h1 : x.toNat < y.toNat
  · simp [charListLe, h1]
  · by_cases h2 : y.toNat < x.toNat
    · have h3 : ¬ (x.toNat = y.toNat) := by omega
      simp [charListLe, h1, h2, h3]
    · have h3 : x.toNat = y.toNat := by omega
      simp [charListLe, h1, h2, h3]

theorem charListLe_total (a b : List Char) :
    charListLe a b = true ∨ charListLe b a = true := by
  induction a generalizing b with
  | nil => left; rfl
  | cons c cs ih =>
    cases b with
    | nil => right; rfl
    | cons d ds =>
      rcases Nat.lt_trichotomy c.toNat d.toNat with h | h | h
      · left; exact (charListLe_cons_iff c d cs ds).mpr (Or.inl h)
      · rcases ih ds with hh | hh
        · left; exact (charListLe_cons_iff c d cs ds).mpr (Or.inr ⟨h, hh⟩)
        · right; exact (charListLe_cons_iff d c ds cs).mpr (Or.inr ⟨h.symm, hh⟩)
      · right; exact (charListLe_cons_iff d c ds cs).mpr (Or.inl h)

theorem charListLe_trans (a b c : List Char)
    (h1 : charListLe a b = true) (h2 : charListLe b c = true) :
    charListLe a c = true := by
  induction a generalizing b c with
  | nil => rfl
  | cons x xs ih =>
    cases b with
    | nil => exact absurd h1 (by simp [charListLe])
    | cons y ys =>
      cases c with
      | nil => exact absurd h2 (by simp [charListLe])
      | cons z zs =>
        rw [charListLe_cons_iff] at h1 h2 ⊢
        rcases h1 with h1 | ⟨h1e, h1r⟩
        · rcases h2 with h2 | ⟨h2e, _⟩
          · exact Or.inl (by omega)
          · exact Or.inl (by omega)
        · rcases h2 with h2 | ⟨h2e, h2r⟩
          · exact Or.inl (by omega)
          · exact Or.inr ⟨by omega, ih ys zs h1r h2r⟩

theorem strLe_total (a b : String) : strLe a b = true ∨ strLe b a = true :=
  charListLe_total a.data b.data

theorem strLe_trans (a b c : String) (h1 : strLe a b = true) (h2 : strLe b c = true) :
    strLe a c = true :=
  charListLe_trans a.data b.data c.data h1 h2

theorem pinKeyLe_total (a b : PinKey) : pinKeyLe a b = true ∨ pinKeyLe b a = true := by
  cases a with
  | num qa =>
    cases b with
    | num qb =>
      rcases le_total qa qb with h | h
      · left; simpa [pinKeyLe] using h
      · right; simpa [pinKeyLe] using h
    | str sb => left; rfl
  | str sa =>
    cases b with
    | num qb => right; rfl
    | str sb => exact strLe_total sa sb

theorem pinKeyLe_trans (a b c : PinKey)
    (h1 : pinKeyLe a b = true) (h2 : pinKeyLe b c = true) : pinKeyLe a c = true := by
  cases a <;> cases b <;> cases c <;>
    simp [pinKeyLe] at h1 h2 ⊢ <;>
    first
      | exact le_trans h1 h2
      | exact strLe_trans _ _ _ h1 h2

/-! ## C6: pin ordering within a connector -/

/-- C6: in `sorted(pins, key=sort_key)` every label parsed by the float model
comes before every unparsed label, parsed labels are in ascending numeric
order among themselves, and unparsed labels are in ascending lexical order
among themselves; the result is a permutation of the input.  Proved for an
arbitrary model `fkey` of the builtin `float`. -/
theorem pin_ordering_sorted (fkey : String → Option ℚ) (pins : List String) :
    List.Perm (sortedPins fkey pins) pins ∧
    (sortedPins fkey pins).Pairwise (fun a b =>
      (∀ qb, fkey b = some qb → ∃ qa, fkey a = some qa ∧ qa ≤ qb) ∧
      (fkey a = none → fkey b = none → strLe a b = true)) := by
  refine ⟨stableSort_perm _ pins, ?_⟩
  have htot : ∀ a b : String,
      pinKeyLe (sort_key fkey a) (sort_key fkey b) = true ∨
      pinKeyLe (sort_key fkey b) (sort_key fkey a) = true :=
    fun a b => pinKeyLe_total _ _
  have htrans : ∀ a b c : String,
      pinKeyLe (sort_key fkey a) (sort_key fkey b) = true →
      pinKeyLe (sort_key fkey b) (sort_key fkey c) = true →
      pinKeyLe (sort_key fkey a) (sort_key fkey c) = true :=
    fun a b c => pinKeyLe_trans _ _ _
  have hp := pairwise_stableSort _ htot htrans pins
  refine hp.imp ?_
  intro a b hab
  constructor
  · intro qb hqb
    cases hqa : fkey a with
    | some qa =>
      refine ⟨qa, rfl, ?_⟩
      rw [sort_key, hqa, sort_key, hqb] at hab
      simpa [pinKeyLe] using hab
    | none =>
      rw [sort_key, hqa, sort_key, hqb] at hab
      simp [pinKeyLe] at hab
  · intro ha hb
    rw [sort_key, ha, sort_key, hb] at hab
    simpa [pinKeyLe] using hab

/-! ## C1 and C10: the center-of-mass guard -/

theorem center_of_mass_zero_of_not_key (connections : List Record) (module_key : String)
    (is_left : Bool) (pos other : List (String × Pos))
    (h : ¬ module_key ∈ keysOf pos) :
    calculate_center_of_mass connections module_key is_left pos other = 0 := by
  simp [calculate_center_of_mass, h]

/-- A single fully valid record: `LA/C1/1/VCC -> VCC/1/R1/RB`. -/
def recA : Record := ⟨"LA", "C1", "1", "VCC", "RB", "R1", "1", "VCC", 0⟩

/-- C1 (failing input): on the single record `LA/C1/1/VCC -> VCC/1/R1/RB` the
code computes center of mass 0 for module `LA`, because the guard of
`calculate_center_of_mass` tests the bare module name `"LA"` against the
provisional position keys (here `"LA:C1"`); the weight-1-per-connection mean
of the provisional RIGHT y-coordinates demanded by the claim is 100. -/
theorem center_of_mass_guard_bug :
    calculate_center_of_mass (processRecords [recA]).connections "LA" true
        (calculate_initial_positions pyFloatModel (processRecords [recA]).left true)
        (calculate_initial_positions pyFloatModel (processRecords [recA]).right false) = 0 ∧
    centerOfMassSpec (processRecords [recA]).connections "LA"
        (calculate_initial_positions pyFloatModel (processRecords [recA]).right false) = 100 ∧
    (0 : ℚ) ≠ 100 := by
  refine ⟨by decide, ?_, by norm_num⟩
  have h3 : (processRecords [recA]).connections.filterMap (fun c =>
      if c.mod1 = "LA" then
        (lookup? (calculate_initial_positions pyFloatModel (processRecords [recA]).right false)
          (tgtKey c)).map (fun p => (p.y : ℚ))
      else none) = [(100 : ℚ)] := by decide
  rw [centerOfMassSpec, h3]
  norm_num

/-- The order in which LEFT module names first appear among filtered records
with a valid source signal (the key insertion order of `left_connectors`). -/
def firstOccurrenceOrder (rs : List Record) : List String :=
  rs.foldl
    (fun acc r =>
      if is_valid_signal r.signal1 then
        (if r.mod1 ∈ acc then acc else acc ++ [r.mod1])
      else acc)
    []

theorem keysOf_addPin (m : SideMap) (mod conn pin : String) (e : Entry) :
    keysOf (addPin m mod conn pin e) =
      if mod ∈ keysOf m then keysOf m else keysOf m ++ [mod] := by
  simp [addPin, keysOf_updateAssoc]

theorem keysOf_processRecord_left (st : IndexState) (r : Record) :
    keysOf (processRecord st r).left =
      if is_valid_signal r.signal1 then
        (if r.mod1 ∈ keysOf st.left then keysOf st.left else keysOf st.left ++ [r.mod1])
      else keysOf st.left := by
  cases hv1 : is_valid_signal r.signal1 <;> cases hv2 : is_valid_signal r.signal2 <;>
    simp [processRecord, hv1, hv2, keysOf_addPin]

theorem keysOf_processRecords_left (rs : List Record) :
    keysOf (processRecords rs).left = firstOccurrenceOrder rs := by
  suffices h : ∀ st : IndexState,
      keysOf (rs.foldl processRecord st).left =
        rs.foldl
          (fun acc r =>
            if is_valid_signal r.signal1 then
              (if r.mod1 ∈ acc then acc else acc ++ [r.mod1])
            else acc)
          (keysOf st.left) by
    simpa [processRecords, firstOccurrenceOrder] using h ⟨[], [], []⟩
  induction rs with
  | nil => intro st; rfl
  | cons r rest ih =>
    intro st
    rw [List.foldl_cons, List.foldl_cons, ih, keysOf_processRecord_left]

theorem lookup?_map_pair (l : List String) (f : String → β) (a : String) (h : a ∈ l) :
    lookup? (l.map fun m => (m, f m)) a = some (f a) := by
  induction l with
  | nil => simp at h
  | cons x xs ih =>
    by_cases he : x = a
    · subst he; simp [lookup?]
    · rcases List.mem_cons.mp h with h' | h'
      · exact absurd h'.symm he
      · simp [lookup?, he, ih h']

/-- C10: when no LEFT module name coincides with a `"module:connector"` key of
the provisional LEFT placement, the guard of `calculate_center_of_mass` makes
every LEFT center 0, and the stable sort then leaves the LEFT modules in the
order in which they first appear among filtered records with a valid source
signal. -/
theorem centers_zero_order_first_occurrence (fkey : String → Option ℚ)
    (records : List Record)
    (h : ∀ m ∈ keysOf (processRecords records).left,
      ¬ m ∈ keysOf (calculate_initial_positions fkey (processRecords records).left true)) :
    (∀ m ∈ keysOf (processRecords records).left,
      calculate_center_of_mass (processRecords records).connections m true
        (calculate_initial_positions fkey (processRecords records).left true)
        (calculate_initial_positions fkey (processRecords records).right false) = 0) ∧
    sorted_left_modules
        (left_modules_centers (processRecords records).connections
          (processRecords records).left
          (calculate_initial_positions fkey (processRecords records).left true)
          (calculate_initial_positions fkey (processRecords records).right false)) =
      firstOccurrenceOrder records := by
  set st := processRecords records with hst
  set tempL := calculate_initial_positions fkey st.left true with htl
  set tempR := calculate_initial_positions fkey st.right false with htr
  have part1 : ∀ m ∈ keysOf st.left,
      calculate_center_of_mass st.connections m true tempL tempR = 0 := by
    intro m hm
    exact center_of_mass_zero_of_not_key st.connections m true tempL tempR (h m hm)
  refine ⟨part1, ?_⟩
  have hkeys : keysOf (left_modules_centers st.connections st.left tempL tempR) =
      keysOf st.left := by
    simp [left_modules_centers, keysOf, List.map_map, Function.comp]
  have hcenter : ∀ a ∈ keysOf st.left,
      centerOf (left_modules_centers st.connections st.left tempL tempR) a = 0 := by
    intro a ha
    rw [centerOf, left_modules_centers, lookupD,
      lookup?_map_pair (keysOf st.left) _ a ha]
    exact part1 a ha
  rw [sorted_left_modules, hkeys, ← keysOf_processRecords_left]
  refine stableSort_of_all _ _ ?_
  intro a ha b hb
  rw [hcenter a ha, hcenter b hb]
  decide

theorem centers_zero_order_first_occurrence_witness :
    sorted_left_modules
        (left_modules_centers (processRecords [recA]).connections
          (processRecords [recA]).left
          (calculate_initial_positions pyFloatModel (processRecords [recA]).left true)
          (calculate_initial_positions pyFloatModel (processRecords [recA]).right false)) =
      firstOccurrenceOrder [recA] :=
  (centers_zero_order_first_occurrence pyFloatModel [recA] (by decide)).2

/-! ## Geometry of placements -/

/-- Two placed boxes do not vertically overlap: one's interval ends before the
other's starts. -/
def vDisjoint (a b : String × Pos) : Prop :=
  a.2.y + a.2.height ≤ b.2.y ∨ b.2.y + b.2.height ≤ a.2.y

theorem vDisjoint_symm (a b : String × Pos) (h : vDisjoint a b) : vDisjoint b a :=
  h.symm

/-- All boxes of `ps` end at or above the cursor `c`. -/
def Below (ps : List (String × Pos)) (c : Int) : Prop :=
  ∀ kv ∈ ps, kv.2.y + kv.2.height ≤ c

/-- Entries stacked downward from `y` ending with cursor `e`: each entry sits
at the running cursor, which then advances by its height plus
`connector_padding = 20`. -/
def stackedFromEnd : List (String × Pos) → Int → Int → Prop
  | [], y, e => e = y
  | kv :: t, y, e => kv.2.y = y ∧ 0 ≤ kv.2.height ∧ stackedFromEnd t (y + kv.2.height + 20) e

/-- Entries stacked downward from `y`. -/
def stackedFrom (l : List (String × Pos)) (y : Int) : Prop := ∃ e, stackedFromEnd l y e

theorem connHeight_nonneg (l : List PinData) : 0 ≤ connHeight l := by
  simp only [connHeight]
  omega

theorem stackedFromEnd_le (t : List (String × Pos)) (y e : Int)
    (h : stackedFromEnd t y e) : y ≤ e := by
  induction t generalizing y with
  | nil =>
    have h' : e = y := h
    omega
  | cons kv rest ih =>
    obtain ⟨h1, h0, h2⟩ := h
    have := ih _ h2
    omega

theorem stackedFromEnd_ge_start (t : List (String × Pos)) (y e : Int)
    (h : stackedFromEnd t y e) : ∀ kv ∈ t, y ≤ kv.2.y := by
  induction t generalizing y with
  | nil => intro kv hkv; simp at hkv
  | cons a rest ih =>
    obtain ⟨h1, h0, h2⟩ := h
    intro kv hkv
    rcases List.mem_cons.mp hkv with rfl | hkv'
    · omega
    · have := ih _ h2 kv hkv'
      omega

theorem stackedFromEnd_below (t : List (String × Pos)) (y e : Int)
    (h : stackedFromEnd t y e) : Below t e := by
  induction t generalizing y with
  | nil => intro kv hkv; simp at hkv
  | cons a rest ih =>
    obtain ⟨h1, h0, h2⟩ := h
    intro kv hkv
    rcases List.mem_cons.mp hkv with rfl | hkv'
    · have := stackedFromEnd_le rest _ _ h2
      omega
    · exact ih _ h2 kv hkv'

theorem stackedFromEnd_pairwise (t : List (String × Pos)) (y e : Int)
    (h : stackedFromEnd t y e) : t.Pairwise vDisjoint := by
  induction t generalizing y with
  | nil => exact List.Pairwise.nil
  | cons a rest ih =>
    obtain ⟨h1, h0, h2⟩ := h
    refine List.pairwise_cons.mpr ⟨?_, ih _ h2⟩
    intro b hb
    have := stackedFromEnd_ge_start rest _ _ h2 b hb
    left
    omega

theorem stackedFromEnd_append (t1 t2 : List (String × Pos)) (y e1 e2 : Int)
    (h1 : stackedFromEnd t1 y e1) (h2 : stackedFromEnd t2 e1 e2) :
    stackedFromEnd (t1 ++ t2) y e2 := by
  induction t1 generalizing y with
  | nil => rw [show e1 = y from h1] at h2; simpa using h2
  | cons a rest ih =>
    obtain ⟨ha, h0, hr⟩ := h1
    exact ⟨ha, h0, ih _ hr⟩

theorem keysOf_append (a b : List (String × β)) :
    keysOf (a ++ b) = keysOf a ++ keysOf b := by
  simp [keysOf]

theorem nodup_keys_append_fresh (m : List (String × β)) (k : String) (v : β)
    (hnd : (keysOf m).Nodup) (h : ¬ k ∈ keysOf m) :
    (keysOf (m ++ [(k, v)])).Nodup := by
  rw [← assocSet_of_not_mem m k v h]
  exact nodup_keysOf_assocSet m k v hnd

/-- `assocSet` keeps pairwise disjointness when the new box is disjoint from
every stored box. -/
theorem pairwise_vDisjoint_assocSet (m : List (String × Pos)) (k : String) (v : Pos)
    (hp : m.Pairwise vDisjoint) (hcross : ∀ kv ∈ m, vDisjoint kv (k, v)) :
    (assocSet m k v).Pairwise vDisjoint := by
  induction m with
  | nil => simp [assocSet]
  | cons a rest ih =>
    obtain ⟨ha, hrest⟩ := List.pairwise_cons.mp hp
    by_cases he : a.1 = k
    · obtain ⟨a1, a2⟩ := a
      simp only at he
      subst he
      rw [assocSet, if_pos rfl]
      refine List.pairwise_cons.mpr ⟨?_, hrest⟩
      intro b hb
      exact vDisjoint_symm _ _ (hcross b (by simp [hb]))
    · obtain ⟨a1, a2⟩ := a
      simp only at he
      rw [assocSet, if_neg he]
      refine List.pairwise_cons.mpr ⟨?_, ih hrest (fun kv hkv => hcross kv (by simp [hkv]))⟩
      intro b hb
      rcases mem_assocSet rest k v b hb with hb' | rfl
      · exact ha b hb'
      · exact hcross (a1, a2) (by simp)

/-! ## `max_right_y` lemmas -/

theorem maxConnFold_ge (rp : List (String × Pos)) (rmod : String) (cl : List String)
    (init : Int) :
    init ≤ cl.foldl
      (fun m2 rconn =>
        match lookup? rp (rmod ++ ":" ++ rconn) with
        | some p => max m2 (p.y + p.height)
        | none => m2)
      init := by
  induction cl generalizing init with
  | nil => exact le_refl _
  | cons c cs ih =>
    rw [List.foldl_cons]
    cases h : lookup? rp (rmod ++ ":" ++ c) with
    | none => simpa [h] using ih init
    | some p =>
      refine le_trans (le_max_left init (p.y + p.height)) ?_
      simpa [h] using ih (max init (p.y + p.height))

theorem maxConnFold_covers (rp : List (String × Pos)) (rmod : String) (cl : List String)
    (init : Int) (rconn : String) (p : Pos)
    (hc : rconn ∈ cl) (hl : lookup? rp (rmod ++ ":" ++ rconn) = some p) :
    p.y + p.height ≤ cl.foldl
      (fun m2 rc =>
        match lookup? rp (rmod ++ ":" ++ rc) with
        | some q => max m2 (q.y + q.height)
        | none => m2)
      init := by
  induction cl generalizing init with
  | nil => simp at hc
  | cons c cs ih =>
    rw [List.foldl_cons]
    rcases List.mem_cons.mp hc with rfl | hc'
    · rw [hl]
      exact le_trans (le_max_right init (p.y + p.height)) (maxConnFold_ge rp rmod cs _)
    · exact ih _ hc'

theorem maxRightBottom_ge (rightCs : SideMap) (mods : List String)
    (rp : List (String × Pos)) (init : Int) :
    init ≤ maxRightBottom rightCs mods rp init := by
  induction mods generalizing init with
  | nil => exact le_refl _
  | cons rmod ms ih =>
    rw [maxRightBottom, List.foldl_cons]
    exact le_trans (maxConnFold_ge rp rmod (sortedKeys (lookupD rightCs rmod [])) init)
      (ih _)

theorem maxRightBottom_covers (rightCs : SideMap) (mods : List String)
    (rp : List (String × Pos)) (init : Int) (rmod rconn : String) (p : Pos)
    (hm : rmod ∈ mods) (hc : rconn ∈ sortedKeys (lookupD rightCs rmod []))
    (hl : lookup? rp (rmod ++ ":" ++ rconn) = some p) :
    p.y + p.height ≤ maxRightBottom rightCs mods rp init := by
  induction mods generalizing init with
  | nil => simp at hm
  | cons m0 ms ih =>
    rw [maxRightBottom, List.foldl_cons]
    rcases List.mem_cons.mp hm with he | hm'
    · subst he
      exact le_trans
        (maxConnFold_covers rp rmod (sortedKeys (lookupD rightCs rmod [])) init rconn p hc hl)
        (maxRightBottom_ge rightCs ms rp _)
    · exact ih _ hm'

/-! ## The right co-placement fold -/

theorem placeRights_inner (fkey : String → Option ℚ) (rightCs : SideMap)
    (conns : List Record) (leftKey rmod : String) (cl : List String)
    (acc : List (String × Pos) × Int) (hnd : (keysOf acc.1).Nodup) :
    ∃ tail,
      (cl.foldl (placeRightConnStep fkey rightCs conns leftKey rmod) acc).1 =
        acc.1 ++ tail ∧
      stackedFromEnd tail acc.2
        (cl.foldl (placeRightConnStep fkey rightCs conns leftKey rmod) acc).2 ∧
      (keysOf (cl.foldl (placeRightConnStep fkey rightCs conns leftKey rmod) acc).1).Nodup ∧
      (∀ kv ∈ tail, ∃ rconn ∈ cl, kv.1 = rmod ++ ":" ++ rconn ∧
        connectedTo conns leftKey rmod rconn) ∧
      (∀ rconn ∈ cl, connectedTo conns leftKey rmod rconn →
        (rmod ++ ":" ++ rconn) ∈
          keysOf (cl.foldl (placeRightConnStep fkey rightCs conns leftKey rmod) acc).1) := by
  induction cl generalizing acc with
  | nil =>
    refine ⟨[], by simp, ?_, by simpa using hnd, by simp, by simp⟩
    exact rfl
  | cons rconn rest ih =>
    rw [List.foldl_cons]
    by_cases hmem : (rmod ++ ":" ++ rconn) ∈ keysOf acc.1
    · have hstep : placeRightConnStep fkey rightCs conns leftKey rmod acc rconn = acc := by
        simp [placeRightConnStep, hmem]
      rw [hstep]
      obtain ⟨tail, h1, h2, h3, h4, h5⟩ := ih acc hnd
      refine ⟨tail, h1, h2, h3, ?_, ?_⟩
      · intro kv hkv
        obtain ⟨rc, hrc, he, hc⟩ := h4 kv hkv
        exact ⟨rc, by simp [hrc], he, hc⟩
      · intro rc hrc hc
        rcases List.mem_cons.mp hrc with he | hrc'
        · subst he
          rw [h1, keysOf_append]
          exact List.mem_append.mpr (Or.inl hmem)
        · exact h5 rc hrc' hc
    · by_cases hcon : connectedTo conns leftKey rmod rconn
      · set pl := buildPinsList fkey (lookupD (lookupD rightCs rmod []) rconn []) with hpl
        set npos : Pos := ⟨50 + 240 + 450, acc.2, 240, connHeight pl, pl, rmod, rconn⟩ with hnpos
        have hstep : placeRightConnStep fkey rightCs conns leftKey rmod acc rconn =
            (acc.1 ++ [(rmod ++ ":" ++ rconn, npos)], acc.2 + connHeight pl + 20) := by
          rw [placeRightConnStep]
          simp only [if_neg hmem]
          rw [if_neg (not_not_intro hcon), assocSet_of_not_mem _ _ _ hmem]
        rw [hstep]
        have hnd2 : (keysOf (acc.1 ++ [(rmod ++ ":" ++ rconn, npos)])).Nodup :=
          nodup_keys_append_fresh acc.1 _ _ hnd hmem
        obtain ⟨tail, h1, h2, h3, h4, h5⟩ :=
          ih (acc.1 ++ [(rmod ++ ":" ++ rconn, npos)], acc.2 + connHeight pl + 20) hnd2
        refine ⟨(rmod ++ ":" ++ rconn, npos) :: tail, ?_, ?_, h3, ?_, ?_⟩
        · rw [h1, List.append_assoc]
          rfl
        · exact ⟨rfl, connHeight_nonneg pl, h2⟩
        · intro kv hkv
          rcases List.mem_cons.mp hkv with he | hkv2
          · exact ⟨rconn, by simp, by rw [he], hcon⟩
          · obtain ⟨rc, hrc, he, hc⟩ := h4 kv hkv2
            exact ⟨rc, by simp [hrc], he, hc⟩
        · intro rc hrc hc
          rcases List.mem_cons.mp hrc with he | hrc2
          · subst he
            rw [h1, keysOf_append, keysOf_append]
            exact List.mem_append.mpr (Or.inl (List.mem_append.mpr (Or.inr (by simp [keysOf]))))
          · exact h5 rc hrc2 hc
      · have hstep : placeRightConnStep fkey rightCs conns leftKey rmod acc rconn = acc := by
          simp [placeRightConnStep, hmem, hcon]
        rw [hstep]
        obtain ⟨tail, h1, h2, h3, h4, h5⟩ := ih acc hnd
        refine ⟨tail, h1, h2, h3, ?_, ?_⟩
        · intro kv hkv
          obtain ⟨rc, hrc, he, hc⟩ := h4 kv hkv
          exact ⟨rc, by simp [hrc], he, hc⟩
        · intro rc hrc hc
          rcases List.mem_cons.mp hrc with he | hrc'
          · subst he; exact absurd hc hcon
          · exact h5 rc hrc' hc

theorem placeRights_outer (fkey : String → Option ℚ) (rightCs : SideMap)
    (conns : List Record) (leftKey : String) (mods : List String)
    (acc : List (String × Pos) × Int) (hnd : (keysOf acc.1).Nodup) :
    ∃ tail,
      (mods.foldl
        (fun a rmod =>
          (sortedKeys (lookupD rightCs rmod [])).foldl
            (placeRightConnStep fkey rightCs conns leftKey rmod) a)
        acc).1 = acc.1 ++ tail ∧
      stackedFromEnd tail acc.2
        (mods.foldl
          (fun a rmod =>
            (sortedKeys (lookupD rightCs rmod [])).foldl
              (placeRightConnStep fkey rightCs conns leftKey rmod) a)
          acc).2 ∧
      (keysOf (mods.foldl
        (fun a rmod =>
          (sortedKeys (lookupD rightCs rmod [])).foldl
            (placeRightConnStep fkey rightCs conns leftKey rmod) a)
        acc).1).Nodup ∧
      (∀ kv ∈ tail, ∃ rmod ∈ mods, ∃ rconn ∈ sortedKeys (lookupD rightCs rmod []),
        kv.1 = rmod ++ ":" ++ rconn ∧ connectedTo conns leftKey rmod rconn) ∧
      (∀ rmod ∈ mods, ∀ rconn ∈ sortedKeys (lookupD rightCs rmod []),
        connectedTo conns leftKey rmod rconn →
        (rmod ++ ":" ++ rconn) ∈
          keysOf (mods.foldl
            (fun a rmod =>
              (sortedKeys (lookupD rightCs rmod [])).foldl
                (placeRightConnStep fkey rightCs conns leftKey rmod) a)
            acc).1) := by
  induction mods generalizing acc with
  | nil =>
    refine ⟨[], by simp, ?_, by simpa using hnd, by simp, by simp⟩
    exact rfl
  | cons rmod ms ih =>
    rw [List.foldl_cons]
    obtain ⟨t1, g1, g2, g3, g4, g5⟩ :=
      placeRights_inner fkey rightCs conns leftKey rmod
        (sortedKeys (lookupD rightCs rmod [])) acc hnd
    set acc1 := (sortedKeys (lookupD rightCs rmod [])).foldl
      (placeRightConnStep fkey rightCs conns leftKey rmod) acc with hacc1
    obtain ⟨t2, k1, k2, k3, k4, k5⟩ := ih acc1 g3
    refine ⟨t1 ++ t2, ?_, ?_, k3, ?_, ?_⟩
    · rw [k1, g1, List.append_assoc]
    · exact stackedFromEnd_append t1 t2 acc.2 acc1.2 _ g2 k2
    · intro kv hkv
      rcases List.mem_append.mp hkv with hkv' | hkv'
      · obtain ⟨rc, hrc, he, hc⟩ := g4 kv hkv'
        exact ⟨rmod, by simp, rc, hrc, he, hc⟩
      · obtain ⟨rm, hrm, rc, hrc, he, hc⟩ := k4 kv hkv'
        exact ⟨rm, by simp [hrm], rc, hrc, he, hc⟩
    · intro rm hrm rc hrc hc
      rcases List.mem_cons.mp hrm with he | hrm'
      · subst he
        have hin : (rm ++ ":" ++ rc) ∈ keysOf acc1.1 := g5 rc hrc hc
        rw [k1, keysOf_append]
        exact List.mem_append.mpr (Or.inl hin)
      · exact k5 rm hrm' rc hrc hc

/-! ## The placement invariant -/

/-- One side is well placed: pairwise vertically disjoint boxes, all ending at
or above the cursor, with distinct keys. -/
def SideOk (ps : List (String × Pos)) (c : Int) : Prop :=
  ps.Pairwise vDisjoint ∧ Below ps c ∧ (keysOf ps).Nodup

/-- The invariant of the placement state. -/
def StOk (s : PlaceState) : Prop :=
  SideOk s.leftPositions s.currentY ∧ SideOk s.rightPositions s.currentY

theorem placeRightsForLeft_eq (fkey : String → Option ℚ) (rightCs : SideMap)
    (conns : List Record) (leftKey : String) (rp : List (String × Pos)) (y0 : Int) :
    placeRightsForLeft fkey rightCs conns leftKey rp y0 =
      (stableSort strLe (connectedRightModules conns leftKey)).foldl
        (fun a rmod =>
          (sortedKeys (lookupD rightCs rmod [])).foldl
            (placeRightConnStep fkey rightCs conns leftKey rmod) a)
        (rp, y0) := rfl

theorem placeLeftConn_eq (fkey : String → Option ℚ) (leftCs rightCs : SideMap)
    (conns : List Record) (st : PlaceState) (m c : String) :
    placeLeftConn fkey leftCs rightCs conns st m c =
      ⟨assocSet st.leftPositions (m ++ ":" ++ c)
          ⟨50, st.currentY, 240,
           connHeight (buildPinsList fkey (lookupD (lookupD leftCs m []) c [])),
           buildPinsList fkey (lookupD (lookupD leftCs m []) c []), m, c⟩,
       (placeRightsForLeft fkey rightCs conns (m ++ ":" ++ c) st.rightPositions st.currentY).1,
       maxRightBottom rightCs (connectedRightModules conns (m ++ ":" ++ c))
          (placeRightsForLeft fkey rightCs conns (m ++ ":" ++ c) st.rightPositions st.currentY).1
          (st.currentY +
            connHeight (buildPinsList fkey (lookupD (lookupD leftCs m []) c []))) + 50⟩ := rfl

theorem placeLeftConn_ok (fkey : String → Option ℚ) (leftCs rightCs : SideMap)
    (conns : List Record) (st : PlaceState) (m c : String) (h : StOk st) :
    StOk (placeLeftConn fkey leftCs rightCs conns st m c) := by
  obtain ⟨⟨hlp, hlb, hln⟩, ⟨hrp, hrb, hrn⟩⟩ := h
  obtain ⟨tail, g1, g2, g3, g4, g5⟩ :=
    placeRights_outer fkey rightCs conns (m ++ ":" ++ c)
      (stableSort strLe (connectedRightModules conns (m ++ ":" ++ c)))
      (st.rightPositions, st.currentY) hrn
  clear g5
  rw [← placeRightsForLeft_eq] at g1 g2 g3
  set RES := placeRightsForLeft fkey rightCs conns (m ++ ":" ++ c)
    st.rightPositions st.currentY with hRES
  set pl := buildPinsList fkey (lookupD (lookupD leftCs m []) c []) with hplv
  set M := maxRightBottom rightCs (connectedRightModules conns (m ++ ":" ++ c)) RES.1
    (st.currentY + connHeight pl) with hM
  have hM1 : st.currentY + connHeight pl ≤ M := maxRightBottom_ge _ _ _ _
  have hnn : 0 ≤ connHeight pl := connHeight_nonneg pl
  have hcyM : st.currentY ≤ M := by omega
  have hrightBelow : Below RES.1 (M + 50) := by
    intro kv hkv
    rw [g1] at hkv
    rcases List.mem_append.mp hkv with hkv' | hkv'
    · have := hrb kv hkv'
      omega
    · obtain ⟨rm, hrm, rc, hrc, he, _⟩ := g4 kv hkv'
      have hmemres : (kv.1, kv.2) ∈ RES.1 := by rw [g1]; exact List.mem_append.mpr (Or.inr hkv')
      have hlook : lookup? RES.1 kv.1 = some kv.2 :=
        lookup?_eq_some_of_mem RES.1 kv.1 kv.2 g3 hmemres
      rw [he] at hlook
      have hcov := maxRightBottom_covers rightCs (connectedRightModules conns (m ++ ":" ++ c))
        RES.1 (st.currentY + connHeight pl) rm rc kv.2
        ((mem_stableSort strLe (connectedRightModules conns (m ++ ":" ++ c)) rm).mp hrm)
        hrc hlook
      rw [← hM] at hcov
      omega
  have hrightPair : RES.1.Pairwise vDisjoint := by
    rw [g1]
    rw [List.pairwise_append]
    refine ⟨hrp, stackedFromEnd_pairwise tail _ _ g2, ?_⟩
    intro a ha b hb
    have h1 := hrb a ha
    have h2 := stackedFromEnd_ge_start tail _ _ g2 b hb
    left
    omega
  rw [placeLeftConn_eq]
  refine ⟨⟨?_, ?_, ?_⟩, ⟨hrightPair, hrightBelow, g3⟩⟩
  · refine pairwise_vDisjoint_assocSet st.leftPositions (m ++ ":" ++ c) _ hlp ?_
    intro kv hkv
    have := hlb kv hkv
    left
    simpa using this
  · intro kv hkv
    show kv.2.y + kv.2.height ≤ M + 50
    rcases mem_assocSet _ _ _ kv hkv with hkv' | he
    · have := hlb kv hkv'
      omega
    · rw [he]
      show st.currentY + connHeight pl ≤ M + 50
      omega
  · exact nodup_keysOf_assocSet _ _ _ hln

theorem placeLeftoverStep_ok (fkey : String → Option ℚ) (rightCs : SideMap) (rmod : String)
    (s : PlaceState) (rconn : String) (h : StOk s) :
    StOk (placeLeftoverStep fkey rightCs rmod s rconn) := by
  obtain ⟨⟨hlp, hlb, hln⟩, ⟨hrp, hrb, hrn⟩⟩ := h
  by_cases hmem : (rmod ++ ":" ++ rconn) ∈ keysOf s.rightPositions
  · have hid : placeLeftoverStep fkey rightCs rmod s rconn = s := by
      simp [placeLeftoverStep, hmem]
    rw [hid]
    exact ⟨⟨hlp, hlb, hln⟩, ⟨hrp, hrb, hrn⟩⟩
  · set pl := buildPinsList fkey (lookupD (lookupD rightCs rmod []) rconn []) with hpl
    have hstep : placeLeftoverStep fkey rightCs rmod s rconn =
        ⟨s.leftPositions,
         s.rightPositions ++
           [(rmod ++ ":" ++ rconn,
             ⟨50 + 240 + 450, s.currentY, 240, connHeight pl, pl, rmod, rconn⟩)],
         s.currentY + connHeight pl + 20⟩ := by
      rw [placeLeftoverStep]
      simp only [if_neg hmem]
      rw [assocSet_of_not_mem _ _ _ hmem]
    rw [hstep]
    have hnn := connHeight_nonneg pl
    refine ⟨⟨hlp, ?_, hln⟩, ⟨?_, ?_, ?_⟩⟩
    · intro kv hkv
      have := hlb kv hkv
      show kv.2.y + kv.2.height ≤ s.currentY + connHeight pl + 20
      omega
    · show (s.rightPositions ++
        [(rmod ++ ":" ++ rconn,
          (⟨50 + 240 + 450, s.currentY, 240, connHeight pl, pl, rmod, rconn⟩ : Pos))]).Pairwise
        vDisjoint
      rw [List.pairwise_append]
      refine ⟨hrp, by simp, ?_⟩
      intro a ha b hb
      rw [List.mem_singleton] at hb
      subst hb
      have := hrb a ha
      exact Or.inl this
    · intro kv hkv
      show kv.2.y + kv.2.height ≤ s.currentY + connHeight pl + 20
      rcases List.mem_append.mp hkv with hkv' | hkv'
      · have := hrb kv hkv'
        omega
      · rw [List.mem_singleton] at hkv'
        subst hkv'
        show s.currentY + connHeight pl ≤ s.currentY + connHeight pl + 20
        omega
    · exact nodup_keys_append_fresh _ _ _ hrn hmem

theorem foldl_preserve {σ γ : Type _} (Inv : σ → Prop) (f : σ → γ → σ)
    (hf : ∀ s x, Inv s → Inv (f s x)) :
    ∀ (l : List γ) (s : σ), Inv s → Inv (l.foldl f s) := by
  intro l
  induction l with
  | nil => intro s h; exact h
  | cons x xs ih => intro s h; exact ih (f s x) (hf s x h)

theorem placeLeftoverRights_ok (fkey : String → Option ℚ) (rightCs : SideMap)
    (s : PlaceState) (h : StOk s) : StOk (placeLeftoverRights fkey rightCs s) := by
  exact foldl_preserve StOk _
    (fun s1 rmod hs1 =>
      foldl_preserve StOk (placeLeftoverStep fkey rightCs rmod)
        (fun s2 rconn hs2 => placeLeftoverStep_ok fkey rightCs rmod s2 rconn hs2)
        (sortedKeys (lookupD rightCs rmod [])) s1 hs1)
    (sortedKeys rightCs) s h

theorem layoutOfState_ok (fkey : String → Option ℚ) (st : IndexState) :
    StOk (layoutOfState fkey st) := by
  have h0 : StOk (⟨[], [], 100⟩ : PlaceState) := by
    refine ⟨⟨List.Pairwise.nil, ?_, List.nodup_nil⟩,
            ⟨List.Pairwise.nil, ?_, List.nodup_nil⟩⟩ <;>
      intro kv hkv <;> simp at hkv
  have hmain := foldl_preserve StOk
    (fun s m =>
      (sortedKeys (lookupD st.left m [])).foldl
        (fun s2 c => placeLeftConn fkey st.left st.right st.connections s2 m c) s)
    (fun s m hs =>
      foldl_preserve StOk
        (fun s2 c => placeLeftConn fkey st.left st.right st.connections s2 m c)
        (fun s2 c hs2 => placeLeftConn_ok fkey st.left st.right st.connections s2 m c hs2)
        (sortedKeys (lookupD st.left m [])) s hs)
    (sorted_left_modules
      (left_modules_centers st.connections st.left
        (calculate_initial_positions fkey st.left true)
        (calculate_initial_positions fkey st.right false)))
    ⟨[], [], 100⟩ h0
  exact placeLeftoverRights_ok fkey st.right _ hmain

/-- C3: on every input, no two final box placements of one side (LEFT or
RIGHT) have overlapping vertical intervals `[y, y + height]`: one box's
interval ends at or before the other's starts. -/
theorem no_vertical_overlap (fkey : String → Option ℚ) (records : List Record) :
    (layout fkey records).leftPositions.Pairwise vDisjoint ∧
    (layout fkey records).rightPositions.Pairwise vDisjoint := by
  have h : StOk (layout fkey records) := layoutOfState_ok fkey (processRecords records)
  exact ⟨h.1.1, h.2.1⟩

/-! ## C2: right co-placement follows connections, not whole modules -/

theorem foldl_connected_mem (conns : List Record) (leftKey : String) (acc : List String)
    (x : String) (hx : x ∈ acc) :
    x ∈ conns.foldl
      (fun acc c =>
        if srcKey c = leftKey then (if c.mod2 ∈ acc then acc else acc ++ [c.mod2]) else acc)
      acc := by
  induction conns generalizing acc with
  | nil => exact hx
  | cons r rest ih =>
    rw [List.foldl_cons]
    apply ih
    by_cases h1 : srcKey r = leftKey
    · by_cases h2 : r.mod2 ∈ acc
      · simpa [h1, h2] using hx
      · simp only [if_pos h1, if_neg h2]
        exact List.mem_append.mpr (Or.inl hx)
    · simpa [h1] using hx

theorem mem_connectedRightModules (conns : List Record) (leftKey : String) (r : Record)
    (hr : r ∈ conns) (hsrc : srcKey r = leftKey) :
    r.mod2 ∈ connectedRightModules conns leftKey := by
  rw [connectedRightModules]
  suffices h : ∀ acc : List String, r.mod2 ∈ conns.foldl
      (fun acc c =>
        if srcKey c = leftKey then (if c.mod2 ∈ acc then acc else acc ++ [c.mod2]) else acc)
      acc by
    exact h []
  induction conns with
  | nil => simp at hr
  | cons a rest ih =>
    intro acc
    rw [List.foldl_cons]
    rcases List.mem_cons.mp hr with he | hr'
    · subst he
      apply foldl_connected_mem
      by_cases h2 : r.mod2 ∈ acc
      · simp [hsrc, h2]
      · simp only [if_pos hsrc, if_neg h2]
        exact List.mem_append.mpr (Or.inr (by simp))
    · exact ih hr' _

/-- C2 (amended): immediately after the LEFT connector `m:c` is placed at
`st.currentY`, the RIGHT connector groups appended alongside it are exactly
the not-yet-placed groups that have a connection whose source is this LEFT
connector: every appended group is such a group, every materialized connected
group ends up placed, and the appended groups stack downward starting at the
same y as the LEFT connector. -/
theorem right_coplacement_connected_only (fkey : String → Option ℚ)
    (leftCs rightCs : SideMap) (conns : List Record) (st : PlaceState) (m c : String)
    (hnd : (keysOf st.rightPositions).Nodup) :
    ∃ tail,
      (placeLeftConn fkey leftCs rightCs conns st m c).rightPositions =
        st.rightPositions ++ tail ∧
      stackedFrom tail st.currentY ∧
      (∀ kv ∈ tail, ¬ kv.1 ∈ keysOf st.rightPositions ∧
        ∃ rmod rconn, kv.1 = rmod ++ ":" ++ rconn ∧
          rconn ∈ keysOf (lookupD rightCs rmod []) ∧
          connectedTo conns (m ++ ":" ++ c) rmod rconn) ∧
      (∀ rmod rconn, rconn ∈ keysOf (lookupD rightCs rmod []) →
        connectedTo conns (m ++ ":" ++ c) rmod rconn →
        (rmod ++ ":" ++ rconn) ∈
          keysOf (placeLeftConn fkey leftCs rightCs conns st m c).rightPositions) := by
  obtain ⟨tail, g1, g2, g3, g4, g5⟩ :=
    placeRights_outer fkey rightCs conns (m ++ ":" ++ c)
      (stableSort strLe (connectedRightModules conns (m ++ ":" ++ c)))
      (st.rightPositions, st.currentY) hnd
  refine ⟨tail, ?_, ⟨_, g2⟩, ?_, ?_⟩
  · rw [placeLeftConn_eq]
    exact g1
  · intro kv hkv
    constructor
    · have hnd2 := g3
      rw [g1] at hnd2
      rw [keysOf_append, List.nodup_append] at hnd2
      intro hbad
      exact hnd2.2.2 hbad (List.mem_map_of_mem Prod.fst hkv)
    · obtain ⟨rm, _, rc, hrc, he, hc⟩ := g4 kv hkv
      exact ⟨rm, rc, he, (mem_stableSort strLe (keysOf (lookupD rightCs rm [])) rc).mp hrc, hc⟩
  · intro rm rc hrc hc
    obtain ⟨r, hrmem, hsrc, hm2, hc2⟩ := hc
    have hrm : rm ∈ stableSort strLe (connectedRightModules conns (m ++ ":" ++ c)) := by
      rw [mem_stableSort]
      rw [← hm2]
      exact mem_connectedRightModules conns (m ++ ":" ++ c) r hrmem hsrc
    have hrc' : rc ∈ sortedKeys (lookupD rightCs rm []) :=
      (mem_stableSort strLe (keysOf (lookupD rightCs rm [])) rc).mpr hrc
    have := g5 rm hrm rc hrc' ⟨r, hrmem, hsrc, hm2, hc2⟩
    rw [placeLeftConn_eq]
    exact this

/-- Second record of the C2 counterexample input. -/
def recB : Record := ⟨"LB", "C9", "1", "SIG2", "RB", "R2", "1", "SIG3", 1⟩

/-- C2 (counterexample): on the input `[recA, recB]` the RIGHT module `RB` is
connected to the first LEFT connector `LA:C1` (through `RB:R1`), so the claim
as stated requires ALL of RB's groups — in particular `RB:R2` — to be placed
right then, stacked under `RB:R1` at y = 100 + 88 + 20 = 208.  The code skips
`RB:R2` there because it has no connection from `LA:C1`, and places it during
the later `LB:C9` step at y = 238. -/
theorem right_coplacement_cex :
    (lookup? (layout pyFloatModel [recA, recB]).rightPositions "RB:R2").map Pos.y =
      some 238 ∧
    ¬ ((lookup? (layout pyFloatModel [recA, recB]).rightPositions "RB:R2").map Pos.y =
      some 208) :=
  ⟨by decide, by decide⟩

theorem right_coplacement_connected_only_witness :
    ("RB" ++ ":" ++ "R1") ∈
      keysOf (placeLeftConn pyFloatModel (processRecords [recA, recB]).left
        (processRecords [recA, recB]).right (processRecords [recA, recB]).connections
        ⟨[], [], 100⟩ "LA" "C1").rightPositions := by
  obtain ⟨tail, h1, h2, h3, h4⟩ :=
    right_coplacement_connected_only pyFloatModel (processRecords [recA, recB]).left
      (processRecords [recA, recB]).right (processRecords [recA, recB]).connections
      ⟨[], [], 100⟩ "LA" "C1" (by decide)
  exact h4 "RB" "R1" (by decide) ⟨recA, by decide, by decide, by decide, by decide⟩

/-! ## C4: wire lane offsets -/

/-- The cumulative offset chain: each recorded connector offset equals the
running counter, which then advances by `numPins * 12 + 12`
(`pinsInConnector * laneSpacing + laneSpacing`). -/
def offsetChain (positions : List (String × Pos)) :
    List (String × Int) → Int → Int → Prop
  | [], y, e => e = y
  | (k, o) :: t, y, e =>
    o = y ∧ offsetChain positions t (y + (numPins positions k : Int) * 12 + 12) e

theorem offsetChain_append (positions : List (String × Pos))
    (t1 t2 : List (String × Int)) (y e1 e2 : Int)
    (h1 : offsetChain positions t1 y e1) (h2 : offsetChain positions t2 e1 e2) :
    offsetChain positions (t1 ++ t2) y e2 := by
  induction t1 generalizing y with
  | nil =>
    have h' : e1 = y := h1
    rw [← h']
    simpa using h2
  | cons kv rest ih =>
    obtain ⟨k, o⟩ := kv
    obtain ⟨ha, hr⟩ := h1
    exact ⟨ha, ih _ hr⟩

/-- All `"module:connector"` keys walked by the left offset loop, in order. -/
def leftKeyList (slm : List String) (leftCs : SideMap) : List String :=
  slm.flatMap fun m => (sortedKeys (lookupD leftCs m [])).map fun c => m ++ ":" ++ c

theorem left_offsets_inner (leftPositions : List (String × Pos))
    (m : String) (cl : List String) (acc : List (String × Int) × Int)
    (hfresh : ∀ x ∈ cl, ¬ (m ++ ":" ++ x) ∈ keysOf acc.1)
    (hndcl : (cl.map fun c => m ++ ":" ++ c).Nodup) :
    ∃ tailo,
      (cl.foldl
        (fun (acc2 : List (String × Int) × Int) c =>
          match lookup? leftPositions (m ++ ":" ++ c) with
          | none => acc2
          | some _ =>
            (assocSet acc2.1 (m ++ ":" ++ c) acc2.2,
             acc2.2 + (numPins leftPositions (m ++ ":" ++ c) : Int) * 12 + 12))
        acc).1 = acc.1 ++ tailo ∧
      offsetChain leftPositions tailo acc.2
        (cl.foldl
          (fun (acc2 : List (String × Int) × Int) c =>
            match lookup? leftPositions (m ++ ":" ++ c) with
            | none => acc2
            | some _ =>
              (assocSet acc2.1 (m ++ ":" ++ c) acc2.2,
               acc2.2 + (numPins leftPositions (m ++ ":" ++ c) : Int) * 12 + 12))
          acc).2 ∧
      (∀ kv ∈ tailo, kv.1 ∈ cl.map fun c => m ++ ":" ++ c) := by
  induction cl generalizing acc with
  | nil =>
    refine ⟨[], by simp, ?_, by simp⟩
    exact rfl
  | cons c cs ih =>
    rw [List.foldl_cons]
    cases hl : lookup? leftPositions (m ++ ":" ++ c) with
    | none =>
      simp only [hl]
      obtain ⟨tailo, h1, h2, h3⟩ := ih acc (fun x hx => hfresh x (by simp [hx]))
        (by simpa using hndcl.of_cons)
      refine ⟨tailo, h1, h2, ?_⟩
      intro kv hkv
      have := h3 kv hkv
      simp only [List.map_cons, List.mem_cons]
      exact Or.inr this
    | some p =>
      simp only [hl]
      have hfr : ¬ (m ++ ":" ++ c) ∈ keysOf acc.1 := hfresh c (by simp)
      rw [assocSet_of_not_mem _ _ _ hfr]
      have hnd2 := hndcl
      rw [List.map_cons, List.nodup_cons] at hnd2
      have hfresh2 : ∀ x ∈ cs,
          ¬ (m ++ ":" ++ x) ∈ keysOf (acc.1 ++ [(m ++ ":" ++ c, acc.2)]) := by
        intro x hx
        rw [keysOf_append]
        intro hbad
        rcases List.mem_append.mp hbad with hb | hb
        · exact hfresh x (by simp [hx]) hb
        · simp only [keysOf, List.map_cons, List.map_nil, List.mem_singleton] at hb
          exact hnd2.1 (hb ▸ List.mem_map_of_mem (fun c => m ++ ":" ++ c) hx)
      obtain ⟨tailo, h1, h2, h3⟩ := ih
        (acc.1 ++ [(m ++ ":" ++ c, acc.2)],
         acc.2 + (numPins leftPositions (m ++ ":" ++ c) : Int) * 12 + 12)
        hfresh2 hnd2.2
      refine ⟨(m ++ ":" ++ c, acc.2) :: tailo, ?_, ⟨rfl, h2⟩, ?_⟩
      · rw [h1, List.append_assoc]
        rfl
      · intro kv hkv
        rcases List.mem_cons.mp hkv with he | hkv'
        · simp [he]
        · have := h3 kv hkv'
          simp only [List.map_cons, List.mem_cons]
          exact Or.inr this

theorem left_offsets_outer (leftPositions : List (String × Pos)) (leftCs : SideMap)
    (slm : List String) (acc : List (String × Int) × Int)
    (hnd : (leftKeyList slm leftCs).Nodup)
    (hdis : ∀ k ∈ keysOf acc.1, ¬ k ∈ leftKeyList slm leftCs) :
    ∃ tailo,
      (slm.foldl
        (fun (acc : List (String × Int) × Int) m =>
          (sortedKeys (lookupD leftCs m [])).foldl
            (fun (acc2 : List (String × Int) × Int) c =>
              match lookup? leftPositions (m ++ ":" ++ c) with
              | none => acc2
              | some _ =>
                (assocSet acc2.1 (m ++ ":" ++ c) acc2.2,
                 acc2.2 + (numPins leftPositions (m ++ ":" ++ c) : Int) * 12 + 12))
            acc)
        acc).1 = acc.1 ++ tailo ∧
      offsetChain leftPositions tailo acc.2
        (slm.foldl
          (fun (acc : List (String × Int) × Int) m =>
            (sortedKeys (lookupD leftCs m [])).foldl
              (fun (acc2 : List (String × Int) × Int) c =>
                match lookup? leftPositions (m ++ ":" ++ c) with
                | none => acc2
                | some _ =>
                  (assocSet acc2.1 (m ++ ":" ++ c) acc2.2,
                   acc2.2 + (numPins leftPositions (m ++ ":" ++ c) : Int) * 12 + 12))
              acc)
          acc).2 ∧
      (∀ kv ∈ tailo, kv.1 ∈ leftKeyList slm leftCs) := by
  induction slm generalizing acc with
  | nil =>
    refine ⟨[], by simp, ?_, by simp⟩
    exact rfl
  | cons m ms ih =>
    rw [List.foldl_cons]
    have hsplit : leftKeyList (m :: ms) leftCs =
        ((sortedKeys (lookupD leftCs m [])).map fun c => m ++ ":" ++ c) ++
          leftKeyList ms leftCs := by
      simp [leftKeyList]
    have hnd' := hnd
    rw [hsplit, List.nodup_append] at hnd'
    have hfresh : ∀ x ∈ sortedKeys (lookupD leftCs m []),
        ¬ (m ++ ":" ++ x) ∈ keysOf acc.1 := by
      intro x hx hbad
      refine hdis _ hbad ?_
      rw [hsplit]
      exact List.mem_append.mpr (Or.inl (List.mem_map_of_mem _ hx))
    obtain ⟨t1, h1, h2, h3⟩ :=
      left_offsets_inner leftPositions m (sortedKeys (lookupD leftCs m [])) acc hfresh hnd'.1
    set acc1 := (sortedKeys (lookupD leftCs m [])).foldl
      (fun (acc2 : List (String × Int) × Int) c =>
        match lookup? leftPositions (m ++ ":" ++ c) with
        | none => acc2
        | some _ =>
          (assocSet acc2.1 (m ++ ":" ++ c) acc2.2,
           acc2.2 + (numPins leftPositions (m ++ ":" ++ c) : Int) * 12 + 12))
      acc with hacc1
    have hdis2 : ∀ k ∈ keysOf acc1.1, ¬ k ∈ leftKeyList ms leftCs := by
      intro k hk
      rw [h1, keysOf_append] at hk
      rcases List.mem_append.mp hk with hk' | hk'
      · intro hbad
        refine hdis k hk' ?_
        rw [hsplit]
        exact List.mem_append.mpr (Or.inr hbad)
      · obtain ⟨kv, hkv, he⟩ := List.mem_map.mp hk'
        intro hbad
        exact hnd'.2.2 (he ▸ h3 kv hkv) hbad
    obtain ⟨t2, k1, k2, k3⟩ := ih acc1 hnd'.2.1 hdis2
    refine ⟨t1 ++ t2, ?_, ?_, ?_⟩
    · rw [k1, h1, List.append_assoc]
    · exact offsetChain_append leftPositions t1 t2 acc.2 acc1.2 _ h2 k2
    · intro kv hkv
      rw [hsplit]
      rcases List.mem_append.mp hkv with hkv' | hkv'
      · exact List.mem_append.mpr (Or.inl (h3 kv hkv'))
      · exact List.mem_append.mpr (Or.inr (k3 kv hkv'))

theorem right_offsets_fold (rp : List (String × Pos)) (l : List (String × Pos))
    (acc : List (String × Int) × Int)
    (hfresh : ∀ kv ∈ l, ¬ kv.1 ∈ keysOf acc.1)
    (hnd : (keysOf l).Nodup) :
    ∃ tailo,
      (l.foldl
        (fun (acc : List (String × Int) × Int) kv =>
          (assocSet acc.1 kv.1 acc.2, acc.2 + (numPins rp kv.1 : Int) * 12 + 12))
        acc).1 = acc.1 ++ tailo ∧
      offsetChain rp tailo acc.2
        (l.foldl
          (fun (acc : List (String × Int) × Int) kv =>
            (assocSet acc.1 kv.1 acc.2, acc.2 + (numPins rp kv.1 : Int) * 12 + 12))
          acc).2 := by
  induction l generalizing acc with
  | nil =>
    refine ⟨[], by simp, ?_⟩
    exact rfl
  | cons kv rest ih =>
    rw [List.foldl_cons]
    have hfr : ¬ kv.1 ∈ keysOf acc.1 := hfresh kv (by simp)
    rw [keysOf_cons, List.nodup_cons] at hnd
    have hfresh2 : ∀ kw ∈ rest, ¬ kw.1 ∈ keysOf (acc.1 ++ [(kv.1, acc.2)]) := by
      intro kw hkw
      rw [keysOf_append]
      intro hbad
      rcases List.mem_append.mp hbad with hb | hb
      · exact hfresh kw (by simp [hkw]) hb
      · simp only [keysOf, List.map_cons, List.map_nil, List.mem_singleton] at hb
        exact hnd.1 (hb ▸ List.mem_map_of_mem Prod.fst hkw)
    rw [assocSet_of_not_mem _ _ _ hfr]
    obtain ⟨tailo, h1, h2⟩ := ih
      (acc.1 ++ [(kv.1, acc.2)], acc.2 + (numPins rp kv.1 : Int) * 12 + 12) hfresh2 hnd.2
    refine ⟨(kv.1, acc.2) :: tailo, ?_, ⟨rfl, h2⟩⟩
    rw [h1, List.append_assoc]
    rfl

theorem left_connector_offsets_chain (slm : List String) (leftCs : SideMap)
    (leftPositions : List (String × Pos)) (hnd : (leftKeyList slm leftCs).Nodup) :
    ∃ e, offsetChain leftPositions (left_connector_offsets slm leftCs leftPositions) 0 e := by
  obtain ⟨tailo, h1, h2, _h3⟩ :=
    left_offsets_outer leftPositions leftCs slm ([], 0) hnd
      (by intro k hk; simp [keysOf] at hk)
  have hdef : left_connector_offsets slm leftCs leftPositions = [] ++ tailo := by
    rw [← h1]
    rfl
  rw [hdef]
  exact ⟨_, h2⟩

theorem right_connector_offsets_chain (rp : List (String × Pos))
    (hnd : (keysOf rp).Nodup) :
    ∃ e, offsetChain rp (right_connector_offsets rp) 0 e := by
  obtain ⟨tailo, h1, h2⟩ := right_offsets_fold rp rp ([], 0)
    (by intro kv hkv; simp [keysOf]) hnd
  have hdef : right_connector_offsets rp = [] ++ tailo := by
    rw [← h1]
    rfl
  rw [hdef]
  exact ⟨_, h2⟩

/-- C4: two wires leaving the same LEFT connector at different pin indices get
exit-lane x coordinates at least `laneSpacing = 12` apart, and on each side
the per-connector cumulative offset counter advances by
`pinsInConnector * 12 + 12` as each connector is processed in placement order
(stated as the `offsetChain` predicate on the produced offset tables; the
connector key lists are assumed collision free, i.e. `Nodup`). -/
theorem lane_offset_invariant
    (leftPositions : List (String × Pos)) (offsets : List (String × Int))
    (leftKey : String) (p : Pos) (hp : lookup? leftPositions leftKey = some p)
    (i j : Int) (hij : i ≠ j)
    (slm : List String) (leftCs : SideMap)
    (hndL : (leftKeyList slm leftCs).Nodup)
    (rp : List (String × Pos)) (hndR : (keysOf rp).Nodup) :
    12 ≤ |left_offset_x leftPositions offsets leftKey i -
          left_offset_x leftPositions offsets leftKey j| ∧
    (∃ e, offsetChain leftPositions (left_connector_offsets slm leftCs leftPositions) 0 e) ∧
    (∃ e, offsetChain rp (right_connector_offsets rp) 0 e) := by
  refine ⟨?_, left_connector_offsets_chain slm leftCs leftPositions hndL,
    right_connector_offsets_chain rp hndR⟩
  simp only [left_offset_x, hp]
  have heq : p.x + p.width + 5 + 30 + lookupD offsets leftKey 0 + i * 12 -
      (p.x + p.width + 5 + 30 + lookupD offsets leftKey 0 + j * 12) = (i - j) * 12 := by
    ring
  rw [heq, abs_mul]
  have h1 : 1 ≤ |i - j| := Int.one_le_abs (sub_ne_zero.mpr hij)
  have h2 : |(12 : Int)| = 12 := by norm_num
  rw [h2]
  nlinarith [abs_nonneg (i - j)]

/-- A concrete one-pin position used to instantiate the lane-offset theorem. -/
def wPos : Pos := ⟨50, 100, 240, 88, [⟨"1", "VCC", [⟨"VCC", 0⟩]⟩], "LA", "C1"⟩

theorem lane_offset_invariant_witness :
    12 ≤ |left_offset_x [("LA:C1", wPos)] [] "LA:C1" 0 -
          left_offset_x [("LA:C1", wPos)] [] "LA:C1" 1| ∧
    (∃ e, offsetChain [("LA:C1", wPos)]
      (left_connector_offsets ["LA"] (processRecords [recA]).left [("LA:C1", wPos)]) 0 e) ∧
    (∃ e, offsetChain [("RB:R1", wPos)]
      (right_connector_offsets [("RB:R1", wPos)]) 0 e) :=
  lane_offset_invariant [("LA:C1", wPos)] [] "LA:C1" wPos (by decide) 0 1 (by decide)
    ["LA"] (processRecords [recA]).left (by decide) [("RB:R1", wPos)] (by decide)

/-! ## C9: rows with "nan" pins are dropped -/

theorem filterRows_append (xs ys : List RawRow) :
    filterRows (xs ++ ys) = filterRows xs ++ filterRows ys := by
  simp [filterRows, List.filter_append, List.map_append]

theorem filterRows_single_nan (r : RawRow)
    (h : pyLower (pyStrip (strForm r.pin1)) = "nan" ∨
         pyLower (pyStrip (strForm r.pin2)) = "nan") :
    filterRows [r] = [] := by
  cases hp1 : r.pin1 with
  | none => simp [filterRows, hp1]
  | some s1 =>
    cases hp2 : r.pin2 with
    | none => simp [filterRows, hp1, hp2]
    | some s2 =>
      rw [hp1, hp2] at h
      simp only [strForm] at h
      by_cases he1 : pyStrip s1 = ""
      · simp [filterRows, hp1, hp2, he1]
      · by_cases he2 : pyStrip s2 = ""
        · simp [filterRows, hp1, hp2, he1, he2]
        · rcases h with h | h
          · simp [filterRows, hp1, hp2, he1, he2, h]
          · simp [filterRows, hp1, hp2, he1, he2, h]

/-- C9: an input row whose trimmed Pin1 or Pin2 equals "nan" case-insensitively
— including the string form `"nan"` produced by a missing cell — is dropped by
the row filtering (lines 44-58) before any grouping or layout, exactly as if
the pin value were absent. -/
theorem nan_pin_rows_dropped (xs ys : List RawRow) (r : RawRow)
    (h : pyLower (pyStrip (strForm r.pin1)) = "nan" ∨
         pyLower (pyStrip (strForm r.pin2)) = "nan") :
    filterRows (xs ++ r :: ys) = filterRows (xs ++ ys) ∧
    filterRows (xs ++ { r with pin1 := none } :: ys) = filterRows (xs ++ ys) := by
  have h1 : filterRows [r] = [] := filterRows_single_nan r h
  have h2 : filterRows [{ r with pin1 := none }] = [] := by
    simp [filterRows]
  constructor
  · rw [show xs ++ r :: ys = xs ++ ([r] ++ ys) from rfl]
    rw [filterRows_append xs ([r] ++ ys), filterRows_append [r] ys, h1,
      filterRows_append xs ys]
    simp
  · have hsplit := filterRows_append xs ([{ r with pin1 := none }] ++ ys)
    have hsplit2 := filterRows_append [{ r with pin1 := none }] ys
    rw [show xs ++ { r with pin1 := none } :: ys =
      xs ++ ([{ r with pin1 := none }] ++ ys) from rfl, hsplit, hsplit2, h2,
      filterRows_append xs ys]
    simp

/-- A raw row whose source pin is a "NaN" string. -/
def rowNan : RawRow :=
  ⟨some "M1", some "C1", some " NaN ", some "S1", some "S2", some "2", some "C2", some "M2"⟩

theorem nan_pin_rows_dropped_witness :
    filterRows ([] ++ rowNan :: []) = filterRows ([] ++ []) :=
  (nan_pin_rows_dropped [] [] rowNan (Or.inl (by decide))).1

/-! ## C8: schema and emptiness errors -/

/-- C8: a missing required column aborts the run with the missing-columns
message before any layout work, with no output produced; with all columns
present but no rows surviving the filter, the run aborts with the
empty-input message, which is distinct from every missing-columns message. -/
theorem schema_and_empty_errors (t : List String × List RawRow) :
    ((required_cols.filter fun c => ¬ c ∈ t.1) ≠ [] →
      generate_drawio_diagram t =
        Except.error (missingColsMsg (required_cols.filter fun c => ¬ c ∈ t.1)) ∧
      ∀ st, generate_drawio_diagram t ≠ Except.ok st) ∧
    ((required_cols.filter fun c => ¬ c ∈ t.1) = [] → filterRows t.2 = [] →
      generate_drawio_diagram t = Except.error emptyRowsMsg ∧
      ∀ st, generate_drawio_diagram t ≠ Except.ok st) ∧
    (∀ cols, missingColsMsg cols ≠ emptyRowsMsg) := by
  refine ⟨?_, ?_, ?_⟩
  · intro hmiss
    have he : generate_drawio_diagram t =
        Except.error (missingColsMsg (required_cols.filter fun c => ¬ c ∈ t.1)) := by
      simp only [generate_drawio_diagram]
      rw [if_pos hmiss]
    exact ⟨he, fun st hok => by rw [he] at hok; exact Except.noConfusion hok⟩
  · intro hmiss hrows
    have he : generate_drawio_diagram t = Except.error emptyRowsMsg := by
      simp only [generate_drawio_diagram]
      rw [if_neg (fun hne => hne hmiss), hrows]
      rfl
    exact ⟨he, fun st hok => by rw [he] at hok; exact Except.noConfusion hok⟩
  · intro cols h
    have hd : (missingColsMsg cols).data.head? = emptyRowsMsg.data.head? := by rw [h]
    rw [missingColsMsg, String.data_append] at hd
    rw [show ("Faltan columnas requeridas: ").data =
      'F' :: ("altan columnas requeridas: ").data from by decide] at hd
    rw [List.cons_append] at hd
    simp only [List.head?_cons] at hd
    have hn : emptyRowsMsg.data.head? = some 'N' := by decide
    rw [hn] at hd
    exact absurd hd (by decide)

/-- A table missing all but one required column. -/
def tMissing : List String × List RawRow := (["Modulo1"], [])

/-- A table with all required columns and no rows. -/
def tEmpty : List String × List RawRow := (required_cols, [])

theorem schema_and_empty_errors_witness :
    generate_drawio_diagram tMissing =
      Except.error (missingColsMsg (required_cols.filter fun c => ¬ c ∈ tMissing.1)) ∧
    generate_drawio_diagram tEmpty = Except.error emptyRowsMsg :=
  ⟨((schema_and_empty_errors tMissing).1 (by decide)).1,
   ((schema_and_empty_errors tEmpty).2.1 (by decide) (by decide)).1⟩
